import Mathlib

/-!
Verification of `ipware/utils.py` (django-ipware).

The Python module is shallowly embedded here.  Python strings are Lean
`String`s (a `String` in this toolchain wraps a `List Char`, and the
embedding works on the character list).  The C library calls
`socket.inet_pton` / `socket.inet_ntop` are modelled by pure parsers and
printers (`pton4pure`, `pton6pure`, `ntop4chars`, `ntop6chars`) that follow
the glibc algorithms `inet_pton4`, `inet_pton6`, `inet_ntop4`, `inet_ntop6`.
CPython raises `ValueError` when a `str` argument of `socket.inet_pton`
contains an embedded null character (the argument-clinic `s` converter),
and `ValueError` is not a `socket.error`, so it escapes the `try/except`
blocks of the source; the embedding therefore gives the fallible Python
functions the type `Except PyErr _`.  The `AttributeError` legacy branches
of the source are dead on any platform providing `inet_pton` and are not
modelled (the spec's design notes direct the same simplification).
-/

namespace Ipware

/-- PyErr models the only exception that can escape the functions of
`utils.py`: the `ValueError` CPython raises when a string passed to
`socket.inet_pton` contains an embedded null character. -/
inductive PyErr where
  | valueError
deriving DecidableEq, Repr

instance {ε α : Type} [DecidableEq ε] [DecidableEq α] : DecidableEq (Except ε α) := fun a b =>
  match a, b with
  | .ok x, .ok y =>
    if h : x = y then .isTrue (by rw [h]) else .isFalse (fun c => h (Except.ok.inj c))
  | .error x, .error y =>
    if h : x = y then .isTrue (by rw [h]) else .isFalse (fun c => h (Except.error.inj c))
  | .ok _, .error _ => .isFalse (fun c => Except.noConfusion c)
  | .error _, .ok _ => .isFalse (fun c => Except.noConfusion c)

/-! ### Character helpers -/

/-- The null character, `"\x00"` in Python. -/
def nulChar : Char := Char.ofNat 0

/-- Whitespace stripped by Python `str.strip()` (the ASCII part: space,
tab, newline, carriage return, vertical tab, form feed). -/
def isPySpace (c : Char) : Bool :=
  c.toNat = 32 || c.toNat = 9 || c.toNat = 10 || c.toNat = 13 || c.toNat = 11 || c.toNat = 12

/-- Decimal digit test, as in glibc `inet_pton4`. -/
def isDigitC (c : Char) : Bool :=
  48 ≤ c.toNat && c.toNat ≤ 57

/-- Hexadecimal digit test, as in glibc `inet_pton6`. -/
def isHexC (c : Char) : Bool :=
  isDigitC c || (97 ≤ c.toNat && c.toNat ≤ 102) || (65 ≤ c.toNat && c.toNat ≤ 70)

/-- Numeric value of a hexadecimal digit character. -/
def hexDigitVal (c : Char) : Nat :=
  if c.toNat ≤ 57 then c.toNat - 48
  else if c.toNat ≤ 70 then c.toNat - 55
  else c.toNat - 87

/-- Character for a decimal digit (used by the `%u` of `inet_ntop4`). -/
def decDigitChar (d : Nat) : Char := Char.ofNat (48 + d)

/-- Character for a hexadecimal digit, lowercase as printed by the `%x`
of glibc `inet_ntop6`. -/
def hexDigitChar (d : Nat) : Char :=
  if d < 10 then Char.ofNat (48 + d) else Char.ofNat (87 + d)

/-- Python `str.lower` restricted to ASCII (every character the embedded
module ever feeds it is ASCII). -/
def pyLowerChar (c : Char) : Char :=
  if 65 ≤ c.toNat && c.toNat ≤ 90 then Char.ofNat (c.toNat + 32) else c

/-! ### List-of-characters helpers (Python string primitives) -/

/-- Python `str.split(sep)` for a one-character separator: splits at every
occurrence, keeping empty pieces. -/
def splitChars (sep : Char) : List Char → List (List Char)
  | [] => [[]]
  | c :: cs =>
    match splitChars sep cs with
    | [] => [[c]]
    | g :: gs => if c = sep then [] :: g :: gs else (c :: g) :: gs

/-- Joins groups with a one-character separator (inverse of `splitChars`). -/
def joinSep (sep : Char) : List (List Char) → List Char
  | [] => []
  | [g] => g
  | g :: gs => g ++ sep :: joinSep sep gs

/-- Python `str.startswith` on character lists: first argument is the
pattern, second the string. -/
def strStartsWith : List Char → List Char → Bool
  | [], _ => true
  | _ :: _, [] => false
  | p :: ps, c :: cs => p = c && strStartsWith ps cs

/-- Python `str.replace(pat, rep)` (leftmost, non-overlapping, all
occurrences), driven by explicit fuel so that the recursion is structural;
fuel at least the length of the string is always sufficient because every
step consumes at least one character. -/
def replaceFuel (pat rep : List Char) : Nat → List Char → List Char
  | 0, s => s
  | _ + 1, [] => []
  | fuel + 1, c :: cs =>
    if pat ≠ [] ∧ strStartsWith pat (c :: cs) = true then
      rep ++ replaceFuel pat rep fuel ((c :: cs).drop pat.length)
    else
      c :: replaceFuel pat rep fuel cs

/-- Python `str.strip()`: drops leading and trailing whitespace. -/
def stripChars (l : List Char) : List Char :=
  (l.dropWhile isPySpace).rdropWhile isPySpace

/-- Python `str.lower()` (ASCII range). -/
def lowerChars (l : List Char) : List Char := l.map pyLowerChar

/-- True when the string holds an embedded null character, in which case
CPython's `socket.inet_pton` raises `ValueError`. -/
def hasNulL (l : List Char) : Bool := l.any (fun c => c = nulChar)

/-! ### IPv4: `socket.inet_pton(AF_INET, _)` and `socket.inet_ntop` -/

/-- Validity of one dotted-quad piece, following glibc `inet_pton4`:
nonempty, decimal digits only, no leading zero on a multi-digit piece. -/
def decGroupOk : List Char → Bool
  | [] => false
  | c :: cs => isDigitC c && cs.all isDigitC && (cs.isEmpty || c ≠ '0')

/-- Decimal value of a digit string (most significant first). -/
def decVal (g : List Char) : Nat := g.foldl (fun a c => 10 * a + (c.toNat - 48)) 0

/-- Pure model of glibc `inet_pton4`: exactly four dot-separated pieces,
each a strict decimal octet at most 255.  Returns the four byte values. -/
def pton4pure (s : List Char) : Option (List Nat) :=
  let gs := splitChars '.' s
  if gs.length = 4 ∧ ∀ g ∈ gs, decGroupOk g = true ∧ decVal g ≤ 255 then
    some (gs.map decVal)
  else none

/-- Decimal rendering of one byte (glibc `inet_ntop4` prints `%u`). -/
def toDecChars (b : Nat) : List Char :=
  match [decDigitChar (b / 100 % 10), decDigitChar (b / 10 % 10),
      decDigitChar (b % 10)].dropWhile (· = '0') with
  | [] => ['0']
  | l => l

/-- Pure model of glibc `inet_ntop4` on four byte values. -/
def ntop4chars (bs : List Nat) : List Char := joinSep '.' (bs.map toDecChars)

/-! ### IPv6: `socket.inet_pton(AF_INET6, _)` and `socket.inet_ntop`

glibc `inet_pton6` scans hex pieces separated by `:`, allows one `::`
(which must compress at least one zero word), and on meeting `.` hands the
rest of the string to `inet_pton4` (so an embedded IPv4 tail can only be
the final piece).  A hex piece may carry any number of leading zeros: the
running value is checked against `0xffff` after every digit, which is
equivalent to requiring at most four digits after the leading zeros.
The split-based parser below is behaviourally identical. -/

/-- Accumulated value of a hex digit string (most significant first). -/
def hexVal (g : List Char) : Nat := g.foldl (fun a c => 16 * a + hexDigitVal c) 0

/-- Value of one hex piece of an IPv6 literal, following glibc
`inet_pton6`: nonempty, hex digits only, at most four digits after
stripping leading zeros.  Result is at most `0xffff`. -/
def hexGroupVal (g : List Char) : Option Nat :=
  if g ≠ [] ∧ (∀ c ∈ g, isHexC c = true) ∧ (g.dropWhile (· = '0')).length ≤ 4 then
    some (hexVal g)
  else none

/-- Splits a string at its first `::`, if any. -/
def splitCC : List Char → Option (List Char × List Char)
  | [] => none
  | [_] => none
  | c :: c2 :: rest =>
    if c = ':' ∧ c2 = ':' then some ([], rest)
    else (splitCC (c2 :: rest)).map (fun p => (c :: p.1, p.2))

/-- True when the string holds a `::` somewhere. -/
def containsCC : List Char → Bool
  | [] => false
  | [_] => false
  | c :: c2 :: rest => if c = ':' ∧ c2 = ':' then true else containsCC (c2 :: rest)

/-- Lowercase hex rendering of a 16-bit word without leading zeros
(glibc `inet_ntop6` prints `%x`). -/
def toHexChars (w : Nat) : List Char :=
  match [hexDigitChar (w / 4096 % 16), hexDigitChar (w / 256 % 16),
      hexDigitChar (w / 16 % 16), hexDigitChar (w % 16)].dropWhile (· = '0') with
  | [] => ['0']
  | l => l

/-- Words (two bytes each) of an embedded IPv4 tail. -/
def bytesToWords : List Nat → List Nat
  | [a, b, c, d] => [256 * a + b, 256 * c + d]
  | _ => []

/-- Parses a `:`-separated run of hex pieces (no IPv4 tail allowed,
as on the left of a `::`). -/
def parseHexGroups : List (List Char) → Option (List Nat)
  | [] => some []
  | g :: gs =>
    match hexGroupVal g, parseHexGroups gs with
    | some w, some ws => some (w :: ws)
    | _, _ => none

/-- Parses a `:`-separated run of pieces whose last piece may be an
embedded IPv4 dotted quad (contributing two words). -/
def parseTailGroups : List (List Char) → Option (List Nat)
  | [] => some []
  | [g] =>
    if '.' ∈ g then
      match pton4pure g with
      | some bs => some (bytesToWords bs)
      | none => none
    else
      match hexGroupVal g with
      | some w => some [w]
      | none => none
  | g :: gs =>
    match hexGroupVal g, parseTailGroups gs with
    | some w, some ws => some (w :: ws)
    | _, _ => none

/-- The piece list of one side of a `::` (an empty side has no pieces). -/
def groupsOf (l : List Char) : List (List Char) :=
  if l = [] then [] else splitChars ':' l

/-- Pure model of glibc `inet_pton6`.  Returns the eight 16-bit words. -/
def pton6pure (s : List Char) : Option (List Nat) :=
  match splitCC s with
  | none =>
    match parseTailGroups (splitChars ':' s) with
    | some ws => if ws.length = 8 then some ws else none
    | none => none
  | some (l, r) =>
    if containsCC r then none
    else
      match parseHexGroups (groupsOf l), parseTailGroups (groupsOf r) with
      | some wl, some wr =>
        if wl.length + wr.length < 8 then
          some (wl ++ List.replicate (8 - wl.length - wr.length) 0 ++ wr)
        else none
      | _, _ => none

/-- Length of the zero run of `ws` beginning at index `i`. -/
def runLenAt (ws : List Nat) (i : Nat) : Nat :=
  ((ws.drop i).takeWhile (fun w => w = 0)).length

/-- Longest zero-run length anywhere in `ws`. -/
def maxRunLen (ws : List Nat) : Nat :=
  (List.range ws.length).foldl (fun m i => max m (runLenAt ws i)) 0

/-- The leftmost longest zero run of `ws`, ignored when shorter than two
words — exactly the `best` run glibc `inet_ntop6` selects for `::`. -/
def bestRun (ws : List Nat) : Option (Nat × Nat) :=
  let len := maxRunLen ws
  if len < 2 then none
  else
    match (List.range ws.length).find? (fun i => runLenAt ws i = len) with
    | some b => some (b, len)
    | none => none

/-- The four bytes of the last two 16-bit words (the part glibc
`inet_ntop6` hands to `inet_ntop4` when it prints an encapsulated
IPv4 tail). -/
def tailBytes : List Nat → List Nat
  | [w6, w7] => [w6 / 256 % 256, w6 % 256, w7 / 256 % 256, w7 % 256]
  | _ => []

/-- Renders words as hex pieces joined by `:`. -/
def hexJoin (ws : List Nat) : List Char := joinSep ':' (ws.map toHexChars)

/-- Pure model of glibc `inet_ntop6` on eight 16-bit words.  The source's
encapsulated-IPv4 condition also lists `best.len == 7 && words[7] != 1`,
but that alternative is unreachable: with a zero run covering indices
0..6 the loop index 6 lies inside the compressed run and is skipped
before the condition is tested, so it is omitted here. -/
def ntop6chars (ws : List Nat) : List Char :=
  match bestRun ws with
  | none => hexJoin ws
  | some (b, l) =>
    if b = 0 ∧ (l = 6 ∨ (l = 5 ∧ ws.getD 5 0 = 0xffff)) then
      (if l = 5 then [':', ':', 'f', 'f', 'f', 'f', ':'] else [':', ':']) ++
        ntop4chars (tailBytes (ws.drop 6))
    else
      hexJoin (ws.take b) ++ ':' :: ':' :: hexJoin (ws.drop (b + l))

/-! ### The functions of `ipware/utils.py` -/

/-- The pattern `"::ffff:"` of `cleanup_ip`. -/
def ccffff : List Char := [':', ':', 'f', 'f', 'f', 'f', ':']

/-- Modelled from the spec: the repository's `defaults` module, which
defines `IPWARE_NON_PUBLIC_IP_PREFIX` and `IPWARE_LOOPBACK_PREFIX`, is not
under `src/`.  The spec describes them as two static, externally
configured string collections: a non-public set covering private and
reserved ranges (RFC1918 equivalents, link-local, documentation ranges,
loopback) and a loopback set.  The classifiers below are parameterised
over this structure. -/
structure IpwareDefs where
  nonPublic : List String
  loopback : List String

/-- Modelled from the spec: a concrete default configuration in the shape
the spec describes (private and reserved textual ranges in the non-public
set; `127.` and `::1` as the loopback set), used to evaluate the concrete
examples the spec gives. -/
def defaultDefs : IpwareDefs where
  nonPublic := [r"0.", r"10.", r"127.", r"169.254.", r"172.16.", r"172.17.",
    r"172.18.", r"172.19.", r"172.20.", r"172.21.", r"172.22.", r"172.23.",
    r"172.24.", r"172.25.", r"172.26.", r"172.27.", r"172.28.", r"172.29.",
    r"172.30.", r"172.31.", r"192.0.2.", r"192.168.", r"255.255.255.",
    r"2001:db8:", r"fc00:", r"fe80:", r"ff00:", r"::1"]
  loopback := [r"127.", r"::1"]

/-- Embedding of `cleanup_ip`: strip, try IPv4, then IPv6; a canonical
IPv6 form starting with `"::ffff:"` has every occurrence of that pattern
removed (`str.replace`) and is returned directly; if both parses fail the
stripped input is returned.  A stripped input holding an embedded null
character makes `socket.inet_pton` raise `ValueError`, which no `except`
clause of the source catches. -/
def cleanup_ip (s : String) : Except PyErr String :=
  let l := stripChars s.data
  if hasNulL l = true then .error .valueError
  else
    match pton4pure l with
    | some bs => .ok (String.mk (ntop4chars bs))
    | none =>
      match pton6pure l with
      | some ws =>
        let c := ntop6chars ws
        if strStartsWith ccffff c = true then
          .ok (String.mk (replaceFuel ccffff [] c.length c))
        else .ok (String.mk c)
      | none => .ok (String.mk l)

/-- Embedding of `is_valid_ipv4` (modern `inet_pton` path; the
`AttributeError` legacy fallback is dead code on this platform). -/
def is_valid_ipv4 (s : String) : Except PyErr Bool :=
  if hasNulL s.data = true then .error .valueError
  else .ok (pton4pure s.data).isSome

/-- Embedding of `is_valid_ipv6`. -/
def is_valid_ipv6 (s : String) : Except PyErr Bool :=
  if hasNulL s.data = true then .error .valueError
  else .ok (pton6pure s.data).isSome

/-- Embedding of `is_valid_ip`: `is_valid_ipv4(ip_str) or
is_valid_ipv6(ip_str)` with Python's short-circuit evaluation. -/
def is_valid_ip (s : String) : Except PyErr Bool :=
  match is_valid_ipv4 s with
  | .error e => .error e
  | .ok true => .ok true
  | .ok false => is_valid_ipv6 s

/-- Embedding of `is_private_ip`:
`ip_str.startswith(defs.IPWARE_NON_PUBLIC_IP_PREFIX)` (a tuple argument to
`startswith` succeeds when any member matches). -/
def is_private_ip (defs : IpwareDefs) (s : String) : Bool :=
  defs.nonPublic.any (fun p => strStartsWith p.data s.data)

/-- Embedding of `is_public_ip`: negation of `is_private_ip`. -/
def is_public_ip (defs : IpwareDefs) (s : String) : Bool :=
  !is_private_ip defs s

/-- Embedding of `is_loopback_ip`:
`ip_str.startswith(defs.IPWARE_LOOPBACK_PREFIX)`. -/
def is_loopback_ip (defs : IpwareDefs) (s : String) : Bool :=
  defs.loopback.any (fun p => strStartsWith p.data s.data)

/-- Python `key.replace('_', '-')`. -/
def underscoreToHyphen (s : String) : String :=
  String.mk (s.data.map (fun c => if c = '_' then '-' else c))

/-- Python `str.strip()` at `String` level. -/
def pyStripStr (s : String) : String := String.mk (stripChars s.data)

/-- Embedding of `get_request_meta`.  The request's `META` mapping is the
external key-value collaborator, modelled as a lookup function
`String → Option String`; `request.META.get(key, request.META.get(key2,
''))` is the as-given key, then the hyphenated key, then the empty
default. -/
def get_request_meta (meta : String → Option String) (key : String) : Option String :=
  let value := pyStripStr ((meta key).getD ((meta (underscoreToHyphen key)).getD (r"")))
  if value = (r"") then none else some value

/-- Embedding of `get_ips_from_string`: split on commas, strip and
lowercase tokens, drop empties; accept the whole list only when both the
first and the last token pass `is_valid_ip` (short-circuit order of the
source's `and`). -/
def get_ips_from_string (s : String) : Except PyErr (List String × Nat) :=
  let cleaned := ((splitChars ',' s.data).map
      (fun t => lowerChars (stripChars t))).filter (fun t => !t.isEmpty)
  match cleaned with
  | [] => .ok ([], 0)
  | f :: rest =>
    match is_valid_ip (String.mk f) with
    | .error e => .error e
    | .ok false => .ok ([], 0)
    | .ok true =>
      match is_valid_ip (String.mk (rest.getLastD f)) with
      | .error e => .error e
      | .ok false => .ok ([], 0)
      | .ok true => .ok ((f :: rest).map String.mk, (f :: rest).length)

/-- Embedding of `get_ip_info`: normalize, validate, classify. -/
def get_ip_info (defs : IpwareDefs) (s : String) : Except PyErr (Option String × Bool) :=
  match cleanup_ip s with
  | .error e => .error e
  | .ok clean =>
    match is_valid_ip clean with
    | .error e => .error e
    | .ok true => .ok (some clean, is_public_ip defs clean)
    | .ok false => .ok (none, false)

/-- Embedding of `get_best_ip`.  `last_ip` may be Python `None`
(`Option.none`); only `None` takes the early return, an empty string does
not. -/
def get_best_ip (defs : IpwareDefs) (last_ip : Option String) (next_ip : String) :
    Except PyErr String :=
  match last_ip with
  | none => .ok next_ip
  | some last =>
    match cleanup_ip last with
    | .error e => .error e
    | .ok cl =>
      match cleanup_ip next_ip with
      | .error e => .error e
      | .ok cn =>
        if is_public_ip defs cl && !is_public_ip defs cn then .ok last
        else if is_private_ip defs cl && is_loopback_ip defs cn then .ok last
        else .ok next_ip

/-- The value `cleanup_ip` returns when it does not raise: the branch
structure of the normalizer as the spec states it (IPv4 canonical form,
else IPv6 canonical form with a leading `"::ffff:"` unwrapped, else the
trimmed input unchanged). -/
def cleanupPure (s : String) : String :=
  let l := stripChars s.data
  match pton4pure l with
  | some bs => String.mk (ntop4chars bs)
  | none =>
    match pton6pure l with
    | some ws =>
      let c := ntop6chars ws
      if strStartsWith ccffff c = true then String.mk (replaceFuel ccffff [] c.length c)
      else String.mk c
    | none => String.mk l

/-- Pure general IP validity (the value `is_valid_ip` computes when it
does not raise). -/
def isValidPure (s : String) : Bool :=
  (pton4pure s.data).isSome || (pton6pure s.data).isSome

/-- The value `get_ips_from_string` returns when it does not raise:
split on commas, strip and lowercase, drop empties; keep the whole list
exactly when it is nonempty and its first and last entries are valid. -/
def getIpsPure (s : String) : List String × Nat :=
  match ((splitChars ',' s.data).map (fun t => lowerChars (stripChars t))).filter
      (fun t => !t.isEmpty) with
  | [] => ([], 0)
  | f :: rest =>
    if isValidPure (String.mk f) && isValidPure (String.mk (rest.getLastD f)) then
      ((f :: rest).map String.mk, (f :: rest).length)
    else ([], 0)

/-- The value `get_ip_info` returns when it does not raise. -/
def getIpInfoPure (defs : IpwareDefs) (s : String) : Option String × Bool :=
  if isValidPure (cleanupPure s) then
    (some (cleanupPure s), is_public_ip defs (cleanupPure s))
  else (none, false)

/-- Sample metadata mapping (a request with one populated header),
used to instantiate theorems about `get_request_meta`. -/
def sampleMeta : String → Option String :=
  fun k => if k = r"REMOTE_ADDR" then some (r" 177.139.233.139 ") else none

/-! ### Infrastructure: splitting, joining, stripping -/

theorem splitChars_ne_nil (sep : Char) (l : List Char) : splitChars sep l ≠ [] := by
  induction l with
  | nil => simp [splitChars]
  | cons c cs ih =>
    simp only [splitChars]
    cases h : splitChars sep cs with
    | nil => simp
    | cons g gs => by_cases hc : c = sep <;> simp [hc]

theorem splitChars_cons_eq (sep c : Char) (cs : List Char) :
    splitChars sep (c :: cs) =
      if c = sep then [] :: splitChars sep cs
      else (c :: (splitChars sep cs).headD []) :: (splitChars sep cs).tail := by
  simp only [splitChars]
  cases h : splitChars sep cs with
  | nil => exact absurd h (splitChars_ne_nil sep cs)
  | cons g gs => by_cases hc : c = sep <;> simp [hc]

theorem splitChars_length (sep : Char) (l : List Char) :
    (splitChars sep l).length = l.count sep + 1 := by
  induction l with
  | nil => simp [splitChars]
  | cons c cs ih =>
    rw [splitChars_cons_eq]
    by_cases hc : c = sep
    · subst hc
      simp only [if_pos rfl, List.length_cons, List.count_cons, beq_self_eq_true, if_pos]
      omega
    · rw [if_neg hc]
      have hb : (c == sep) = false := by simp [hc]
      cases h : splitChars sep cs with
      | nil => exact absurd h (splitChars_ne_nil sep cs)
      | cons g gs =>
        rw [h] at ih
        simp only [h, List.headD_cons, List.tail_cons, List.length_cons, List.count_cons, hb,
          Bool.false_eq_true, if_false] at *
        omega

theorem mem_of_mem_splitChars {sep c : Char} {l : List Char} :
    ∀ {g : List Char}, g ∈ splitChars sep l → c ∈ g → c ∈ l := by
  induction l with
  | nil =>
    intro g hg hc
    simp [splitChars] at hg
    subst hg
    exact absurd hc (List.not_mem_nil c)
  | cons a cs ih =>
    intro g hg hc
    rw [splitChars_cons_eq] at hg
    cases h : splitChars sep cs with
    | nil => exact absurd h (splitChars_ne_nil sep cs)
    | cons g0 gs =>
      rw [h] at hg
      by_cases ha : a = sep
      · rw [if_pos ha] at hg
        rcases List.mem_cons.mp hg with h1 | h1
        · subst h1; exact absurd hc (List.not_mem_nil c)
        · exact List.mem_cons_of_mem a (ih (h ▸ h1) hc)
      · rw [if_neg ha] at hg
        simp only [List.headD_cons, List.tail_cons] at hg
        rcases List.mem_cons.mp hg with h1 | h1
        · subst h1
          rcases List.mem_cons.mp hc with h2 | h2
          · exact h2 ▸ List.mem_cons_self a cs
          · exact List.mem_cons_of_mem a (ih (h ▸ List.mem_cons_self g0 gs) h2)
        · exact List.mem_cons_of_mem a (ih (h ▸ List.mem_cons_of_mem g0 h1) hc)

theorem splitChars_append_cons {sep : Char} {g : List Char} (hg : sep ∉ g)
    (rest : List Char) : splitChars sep (g ++ sep :: rest) = g :: splitChars sep rest := by
  induction g with
  | nil =>
    rw [List.nil_append, splitChars_cons_eq, if_pos rfl]
  | cons a as ih =>
    have ha : a ≠ sep := fun h => hg (h ▸ List.mem_cons_self a as)
    have has : sep ∉ as := fun h => hg (List.mem_cons_of_mem a h)
    rw [List.cons_append, splitChars_cons_eq, if_neg ha, ih has]
    simp

theorem splitChars_of_not_mem {sep : Char} {l : List Char} (h : sep ∉ l) :
    splitChars sep l = [l] := by
  induction l with
  | nil => simp [splitChars]
  | cons a as ih =>
    have ha : a ≠ sep := fun hh => h (hh ▸ List.mem_cons_self a as)
    have has : sep ∉ as := fun hh => h (List.mem_cons_of_mem a hh)
    rw [splitChars_cons_eq, if_neg ha, ih has]
    simp

theorem mem_joinSep {sep c : Char} :
    ∀ {gs : List (List Char)}, c ∈ joinSep sep gs → c = sep ∨ ∃ g ∈ gs, c ∈ g := by
  intro gs
  induction gs with
  | nil => intro h; exact absurd h (List.not_mem_nil c)
  | cons g gs ih =>
    intro h
    cases gs with
    | nil =>
      simp only [joinSep] at h
      exact Or.inr ⟨g, List.mem_cons_self g [], h⟩
    | cons g1 gs1 =>
      simp only [joinSep] at h
      rcases List.mem_append.mp h with h1 | h1
      · exact Or.inr ⟨g, List.mem_cons_self _ _, h1⟩
      · rcases List.mem_cons.mp h1 with h2 | h2
        · exact Or.inl h2
        · rcases ih h2 with h3 | ⟨g2, hg2, hc2⟩
          · exact Or.inl h3
          · exact Or.inr ⟨g2, List.mem_cons_of_mem g hg2, hc2⟩

theorem splitChars_joinSep {sep : Char} :
    ∀ {gs : List (List Char)}, gs ≠ [] → (∀ g ∈ gs, sep ∉ g) →
      splitChars sep (joinSep sep gs) = gs := by
  intro gs
  induction gs with
  | nil => intro h; exact absurd rfl h
  | cons g gs ih =>
    intro _ hmem
    cases gs with
    | nil =>
      simp only [joinSep]
      exact splitChars_of_not_mem (hmem g (List.mem_cons_self g []))
    | cons g1 gs1 =>
      simp only [joinSep]
      rw [splitChars_append_cons (hmem g (List.mem_cons_self _ _))]
      rw [ih (by simp) (fun g2 hg2 => hmem g2 (List.mem_cons_of_mem g hg2))]

theorem strStartsWith_iff {p : List Char} :
    ∀ {s : List Char}, strStartsWith p s = true ↔ ∃ t, s = p ++ t := by
  induction p with
  | nil => intro s; simp [strStartsWith]
  | cons a as ih =>
    intro s
    cases s with
    | nil =>
      simp only [strStartsWith]
      constructor
      · intro h; exact absurd h (by simp)
      · rintro ⟨t, ht⟩; exact absurd ht (by simp)
    | cons c cs =>
      simp only [strStartsWith, Bool.and_eq_true, decide_eq_true_eq]
      rw [ih]
      constructor
      · rintro ⟨h1, t, ht⟩; exact ⟨t, by rw [ht, h1]; simp⟩
      · rintro ⟨t, ht⟩
        simp only [List.cons_append, List.cons.injEq] at ht
        exact ⟨ht.1.symm, t, ht.2⟩

theorem joinSep_ne_nil_of_ne {sep : Char} {gs : List (List Char)} (h : gs ≠ [])
    (hne : ∀ g ∈ gs, g ≠ []) : joinSep sep gs ≠ [] := by
  cases gs with
  | nil => exact absurd rfl h
  | cons g gs1 =>
    cases gs1 with
    | nil => exact hne g (List.mem_cons_self g [])
    | cons g1 gs2 =>
      simp only [joinSep, ne_eq, List.append_eq_nil]
      intro hc
      exact absurd hc.2 (by simp)

theorem dropWhile_head_false {p : Char → Bool} {c : Char} {rest : List Char} :
    ∀ {l : List Char}, l.dropWhile p = c :: rest → p c = false := by
  intro l
  induction l with
  | nil => intro h; exact absurd h (by simp)
  | cons a as ih =>
    intro h
    rw [List.dropWhile_cons] at h
    by_cases ha : p a = true
    · exact ih (by rw [if_pos ha] at h; exact h)
    · rw [if_neg ha] at h
      rcases List.cons.inj h with ⟨h1, _⟩
      rw [← h1]
      exact Bool.eq_false_iff.mpr ha

theorem mem_stripChars {c : Char} {l : List Char} (h : c ∈ stripChars l) : c ∈ l := by
  unfold stripChars at h
  have h1 : c ∈ l.dropWhile isPySpace :=
    ((List.rdropWhile_prefix isPySpace (l.dropWhile isPySpace)).sublist).mem h
  exact (List.dropWhile_sublist isPySpace).mem h1

theorem stripChars_idem (l : List Char) : stripChars (stripChars l) = stripChars l := by
  unfold stripChars
  cases hsm : (l.dropWhile isPySpace).rdropWhile isPySpace with
  | nil => simp [List.rdropWhile]
  | cons c rest =>
    rcases (List.rdropWhile_prefix isPySpace (l.dropWhile isPySpace)) with ⟨t, ht⟩
    rw [hsm] at ht
    have hm : List.dropWhile isPySpace l = c :: (rest ++ t) := by rw [← ht]; simp
    have hc : isPySpace c = false := dropWhile_head_false hm
    have hdrop : (c :: rest).dropWhile isPySpace = c :: rest := by
      rw [List.dropWhile_cons, if_neg (by simp [hc])]
    rw [hdrop, ← hsm, List.rdropWhile_idempotent]

theorem stripChars_eq_self {l : List Char} (h : ∀ c ∈ l, isPySpace c = false) :
    stripChars l = l := by
  unfold stripChars
  have h1 : l.dropWhile isPySpace = l := by
    cases hl : l with
    | nil => simp
    | cons a as =>
      rw [List.dropWhile_cons, if_neg (by simp [h a (by rw [hl]; exact List.mem_cons_self a as)])]
  rw [h1]
  rw [List.rdropWhile_eq_self_iff]
  intro hl
  exact fun hp => by simp [h _ (List.getLast_mem hl)] at hp

theorem hasNulL_eq_false_iff {l : List Char} : hasNulL l = false ↔ ∀ c ∈ l, c ≠ nulChar := by
  simp [hasNulL]

theorem hasNulL_stripChars {l : List Char} (h : hasNulL l = false) :
    hasNulL (stripChars l) = false := by
  rw [hasNulL_eq_false_iff] at *
  exact fun c hc => h c (mem_stripChars hc)

theorem pyLowerChar_ne_nul {c : Char} (h : c ≠ nulChar) : pyLowerChar c ≠ nulChar := by
  unfold pyLowerChar
  by_cases hr : (65 ≤ c.toNat && c.toNat ≤ 90) = true
  · rw [if_pos hr]
    simp only [Bool.and_eq_true, decide_eq_true_eq] at hr
    have haux : ∀ m, m < 26 → Char.ofNat (97 + m) ≠ nulChar := by decide
    have h1 : c.toNat + 32 = 97 + (c.toNat - 65) := by omega
    rw [h1]
    exact haux (c.toNat - 65) (by omega)
  · rw [if_neg hr]
    exact h

theorem hasNulL_lowerChars {l : List Char} (h : hasNulL l = false) :
    hasNulL (lowerChars l) = false := by
  rw [hasNulL_eq_false_iff] at *
  intro c hc
  rcases List.mem_map.mp hc with ⟨a, ha, rfl⟩
  exact pyLowerChar_ne_nul (h a ha)

theorem hasNulL_of_mem_splitChars {sep : Char} {l g : List Char}
    (h : hasNulL l = false) (hg : g ∈ splitChars sep l) : hasNulL g = false := by
  rw [hasNulL_eq_false_iff] at *
  exact fun c hc => h c (mem_of_mem_splitChars hg hc)

/-! ### Infrastructure: character classes -/

theorem hexDigitChar_facts : ∀ d, d < 16 →
    isHexC (hexDigitChar d) = true ∧ hexDigitChar d ≠ nulChar ∧ hexDigitChar d ≠ ':' ∧
      hexDigitChar d ≠ '.' ∧ isPySpace (hexDigitChar d) = false ∧
      hexDigitVal (hexDigitChar d) = d ∧ (hexDigitChar d = '0' ↔ d = 0) := by decide

theorem decDigitChar_facts : ∀ d, d < 10 →
    isDigitC (decDigitChar d) = true ∧ decDigitChar d ≠ nulChar ∧ decDigitChar d ≠ ':' ∧
      decDigitChar d ≠ '.' ∧ isPySpace (decDigitChar d) = false ∧
      (decDigitChar d).toNat - 48 = d ∧ (decDigitChar d = '0' ↔ d = 0) := by decide

theorem isDigitC_isHexC {c : Char} (h : isDigitC c = true) : isHexC c = true := by
  simp [isHexC, h]

theorem isDigitC_facts {c : Char} (h : isDigitC c = true) :
    c ≠ ':' ∧ c ≠ '.' ∧ c ≠ nulChar ∧ isPySpace c = false := by
  simp only [isDigitC, Bool.and_eq_true, decide_eq_true_eq] at h
  have hcolon : (':').toNat = 58 := rfl
  have hdot : ('.').toNat = 46 := rfl
  have hnul : nulChar.toNat = 0 := rfl
  refine ⟨fun hc => ?_, fun hc => ?_, fun hc => ?_, ?_⟩
  · have := congrArg Char.toNat hc; omega
  · have := congrArg Char.toNat hc; omega
  · have := congrArg Char.toNat hc; omega
  · simp only [isPySpace, Bool.or_eq_false_iff, decide_eq_false_iff_not]
    omega

theorem isHexC_facts {c : Char} (h : isHexC c = true) :
    c ≠ ':' ∧ c ≠ '.' ∧ c ≠ nulChar ∧ isPySpace c = false := by
  simp only [isHexC, isDigitC, Bool.or_eq_true, Bool.and_eq_true, decide_eq_true_eq] at h
  have hcolon : (':').toNat = 58 := rfl
  have hdot : ('.').toNat = 46 := rfl
  have hnul : nulChar.toNat = 0 := rfl
  refine ⟨fun hc => ?_, fun hc => ?_, fun hc => ?_, ?_⟩
  · have := congrArg Char.toNat hc; omega
  · have := congrArg Char.toNat hc; omega
  · have := congrArg Char.toNat hc; omega
  · simp only [isPySpace, Bool.or_eq_false_iff, decide_eq_false_iff_not]
    omega

/-! ### Infrastructure: character sets of the printers, null-freedom -/

theorem mem_toDecChars {c : Char} {b : Nat} (h : c ∈ toDecChars b) :
    ∃ d, d < 10 ∧ c = decDigitChar d := by
  unfold toDecChars at h
  cases hd : [decDigitChar (b / 100 % 10), decDigitChar (b / 10 % 10),
      decDigitChar (b % 10)].dropWhile (· = '0') with
  | nil =>
    rw [hd] at h
    simp only [List.mem_singleton] at h
    exact ⟨0, by omega, by rw [h]; decide⟩
  | cons a as =>
    rw [hd] at h
    have h2 : c ∈ a :: as := h
    rw [← hd] at h2
    have hsub : c ∈ [decDigitChar (b / 100 % 10), decDigitChar (b / 10 % 10),
        decDigitChar (b % 10)] := (List.dropWhile_sublist _).mem h2
    simp only [List.mem_cons, List.not_mem_nil, or_false] at hsub
    rcases hsub with h1 | h1 | h1
    · exact ⟨b / 100 % 10, Nat.mod_lt _ (by omega), h1⟩
    · exact ⟨b / 10 % 10, Nat.mod_lt _ (by omega), h1⟩
    · exact ⟨b % 10, Nat.mod_lt _ (by omega), h1⟩

theorem mem_toHexChars {c : Char} {w : Nat} (h : c ∈ toHexChars w) :
    ∃ d, d < 16 ∧ c = hexDigitChar d := by
  unfold toHexChars at h
  cases hd : [hexDigitChar (w / 4096 % 16), hexDigitChar (w / 256 % 16),
      hexDigitChar (w / 16 % 16), hexDigitChar (w % 16)].dropWhile (· = '0') with
  | nil =>
    rw [hd] at h
    simp only [List.mem_singleton] at h
    exact ⟨0, by omega, by rw [h]; decide⟩
  | cons a as =>
    rw [hd] at h
    have h2 : c ∈ a :: as := h
    rw [← hd] at h2
    have hsub : c ∈ [hexDigitChar (w / 4096 % 16), hexDigitChar (w / 256 % 16),
        hexDigitChar (w / 16 % 16), hexDigitChar (w % 16)] :=
      (List.dropWhile_sublist _).mem h2
    simp only [List.mem_cons, List.not_mem_nil, or_false] at hsub
    rcases hsub with h1 | h1 | h1 | h1
    · exact ⟨w / 4096 % 16, Nat.mod_lt _ (by omega), h1⟩
    · exact ⟨w / 256 % 16, Nat.mod_lt _ (by omega), h1⟩
    · exact ⟨w / 16 % 16, Nat.mod_lt _ (by omega), h1⟩
    · exact ⟨w % 16, Nat.mod_lt _ (by omega), h1⟩

theorem ntop4chars_good {bs : List Nat} : ∀ c ∈ ntop4chars bs, isDigitC c = true ∨ c = '.' := by
  intro c hc
  rcases mem_joinSep hc with h | ⟨g, hg, hcg⟩
  · exact Or.inr h
  · rcases List.mem_map.mp hg with ⟨b, _, rfl⟩
    rcases mem_toDecChars hcg with ⟨d, hd, rfl⟩
    exact Or.inl (decDigitChar_facts d hd).1

theorem hexJoin_good {ws : List Nat} : ∀ c ∈ hexJoin ws, isHexC c = true ∨ c = ':' := by
  intro c hc
  rcases mem_joinSep hc with h | ⟨g, hg, hcg⟩
  · exact Or.inr h
  · rcases List.mem_map.mp hg with ⟨w, _, rfl⟩
    rcases mem_toHexChars hcg with ⟨d, hd, rfl⟩
    exact Or.inl (hexDigitChar_facts d hd).1

theorem ntop6chars_good {ws : List Nat} :
    ∀ c ∈ ntop6chars ws, isHexC c = true ∨ c = ':' ∨ c = '.' := by
  intro c hc
  unfold ntop6chars at hc
  cases hbr : bestRun ws with
  | none =>
    rw [hbr] at hc
    rcases hexJoin_good c hc with h | h
    · exact Or.inl h
    · exact Or.inr (Or.inl h)
  | some bl =>
    rw [hbr] at hc
    obtain ⟨b, l⟩ := bl
    have hc2 : c ∈
        (if b = 0 ∧ (l = 6 ∨ (l = 5 ∧ ws.getD 5 0 = 0xffff)) then
          (if l = 5 then [':', ':', 'f', 'f', 'f', 'f', ':'] else [':', ':']) ++
            ntop4chars (tailBytes (ws.drop 6))
        else hexJoin (ws.take b) ++ ':' :: ':' :: hexJoin (ws.drop (b + l))) := hc
    clear hc
    rename' hc2 => hc
    by_cases henc : b = 0 ∧ (l = 6 ∨ (l = 5 ∧ ws.getD 5 0 = 0xffff))
    · rw [if_pos henc] at hc
      rcases List.mem_append.mp hc with h1 | h1
      · by_cases hl5 : l = 5
        · rw [if_pos hl5] at h1
          have : c = ':' ∨ c = 'f' := by
            simp only [List.mem_cons, List.not_mem_nil, or_false] at h1
            tauto
          rcases this with h2 | h2
          · exact Or.inr (Or.inl h2)
          · exact Or.inl (by rw [h2]; decide)
        · rw [if_neg hl5] at h1
          simp only [List.mem_cons, List.not_mem_nil, or_false] at h1
          rcases h1 with h2 | h2 <;> exact Or.inr (Or.inl h2)
      · rcases ntop4chars_good c h1 with h2 | h2
        · exact Or.inl (isDigitC_isHexC h2)
        · exact Or.inr (Or.inr h2)
    · rw [if_neg henc] at hc
      rcases List.mem_append.mp hc with h1 | h1
      · rcases hexJoin_good c h1 with h2 | h2
        · exact Or.inl h2
        · exact Or.inr (Or.inl h2)
      · rcases List.mem_cons.mp h1 with h2 | h2
        · exact Or.inr (Or.inl h2)
        · rcases List.mem_cons.mp h2 with h3 | h3
          · exact Or.inr (Or.inl h3)
          · rcases hexJoin_good c h3 with h4 | h4
            · exact Or.inl h4
            · exact Or.inr (Or.inl h4)

theorem mem_replaceFuel_nil {pat : List Char} {c : Char} :
    ∀ {fuel : Nat} {s : List Char}, c ∈ replaceFuel pat [] fuel s → c ∈ s := by
  intro fuel
  induction fuel with
  | zero => intro s h; exact h
  | succ n ih =>
    intro s h
    cases s with
    | nil => exact h
    | cons a as =>
      rw [replaceFuel] at h
      by_cases hm : pat ≠ [] ∧ strStartsWith pat (a :: as) = true
      · rw [if_pos hm] at h
        rw [List.nil_append] at h
        exact (List.drop_sublist pat.length (a :: as)).mem (ih h)
      · rw [if_neg hm] at h
        rcases List.mem_cons.mp h with h1 | h1
        · exact h1 ▸ List.mem_cons_self a as
        · exact List.mem_cons_of_mem a (ih h1)

theorem good4_ne_nul {c : Char} (h : isDigitC c = true ∨ c = '.') : c ≠ nulChar := by
  rcases h with h | h
  · exact (isDigitC_facts h).2.2.1
  · rw [h]; decide

theorem good6_ne_nul {c : Char} (h : isHexC c = true ∨ c = ':' ∨ c = '.') : c ≠ nulChar := by
  rcases h with h | h | h
  · exact (isHexC_facts h).2.2.1
  · rw [h]; decide
  · rw [h]; decide

theorem good6_not_space {c : Char} (h : isHexC c = true ∨ c = ':' ∨ c = '.') :
    isPySpace c = false := by
  rcases h with h | h | h
  · exact (isHexC_facts h).2.2.2
  · rw [h]; decide
  · rw [h]; decide

/-- Null-freedom of every value `cleanup_ip` can return. -/
theorem hasNulL_cleanupPure {s : String} (h : hasNulL s.data = false) :
    hasNulL (cleanupPure s).data = false := by
  have hstrip := hasNulL_stripChars h
  cases h4 : pton4pure (stripChars s.data) with
  | some bs =>
    simp only [cleanupPure, h4]
    rw [hasNulL_eq_false_iff]
    exact fun c hc => good4_ne_nul (ntop4chars_good c hc)
  | none =>
    cases h6 : pton6pure (stripChars s.data) with
    | some ws =>
      simp only [cleanupPure, h4, h6]
      by_cases hff : strStartsWith ccffff (ntop6chars ws) = true
      · rw [if_pos hff]
        rw [hasNulL_eq_false_iff]
        exact fun c hc => good6_ne_nul (ntop6chars_good c (mem_replaceFuel_nil hc))
      · rw [if_neg hff]
        rw [hasNulL_eq_false_iff]
        exact fun c hc => good6_ne_nul (ntop6chars_good c hc)
    | none =>
      simp only [cleanupPure, h4, h6]
      exact hstrip

/-- With no embedded null in the stripped input, `cleanup_ip` returns
normally, and its value is `cleanupPure`. -/
theorem cleanup_ip_eq_pure {s : String} (h : hasNulL (stripChars s.data) = false) :
    cleanup_ip s = .ok (cleanupPure s) := by
  cases h4 : pton4pure (stripChars s.data) with
  | some bs => simp only [cleanup_ip, cleanupPure, h, Bool.false_eq_true, if_false, h4]
  | none =>
    cases h6 : pton6pure (stripChars s.data) with
    | some ws =>
      simp only [cleanup_ip, cleanupPure, h, Bool.false_eq_true, if_false, h4, h6]
      by_cases hff : strStartsWith ccffff (ntop6chars ws) = true
      · rw [if_pos hff, if_pos hff]
      · rw [if_neg hff, if_neg hff]
    | none => simp only [cleanup_ip, cleanupPure, h, Bool.false_eq_true, if_false, h4, h6]

theorem is_valid_ipv4_eq_pure {s : String} (h : hasNulL s.data = false) :
    is_valid_ipv4 s = .ok (pton4pure s.data).isSome := by
  unfold is_valid_ipv4
  rw [if_neg (by rw [h]; simp)]

theorem is_valid_ipv6_eq_pure {s : String} (h : hasNulL s.data = false) :
    is_valid_ipv6 s = .ok (pton6pure s.data).isSome := by
  unfold is_valid_ipv6
  rw [if_neg (by rw [h]; simp)]

theorem is_valid_ip_eq_pure {s : String} (h : hasNulL s.data = false) :
    is_valid_ip s = .ok (isValidPure s) := by
  unfold is_valid_ip isValidPure
  rw [is_valid_ipv4_eq_pure h]
  cases h4 : (pton4pure s.data).isSome with
  | true => rfl
  | false =>
    rw [is_valid_ipv6_eq_pure h]
    simp

theorem getLastD_mem {α : Type} : ∀ (l : List α) (d : α), l.getLastD d = d ∨ l.getLastD d ∈ l := by
  intro l
  induction l with
  | nil => intro d; exact Or.inl rfl
  | cons a as ih =>
    intro d
    rw [List.getLastD_cons]
    rcases ih a with h | h
    · exact Or.inr (by rw [h]; exact List.mem_cons_self a as)
    · exact Or.inr (List.mem_cons_of_mem a h)

/-! ### Infrastructure: evaluation of the compound functions on
null-free input -/

theorem get_best_ip_eq_policy (defs : IpwareDefs) (last next cl cn : String)
    (hl : cleanup_ip last = .ok cl) (hn : cleanup_ip next = .ok cn) :
    get_best_ip defs (some last) next =
      .ok (if is_public_ip defs cl && !is_public_ip defs cn then last
        else if is_private_ip defs cl && is_loopback_ip defs cn then last
        else next) := by
  simp only [get_best_ip, hl, hn]
  by_cases h1 : (is_public_ip defs cl && !is_public_ip defs cn) = true
  · simp [h1]
  · simp only [h1]
    by_cases h2 : (is_private_ip defs cl && is_loopback_ip defs cn) = true
    · simp [h1, h2]
    · simp [h1, h2]

theorem get_ips_eq_pure (s : String) (h : hasNulL s.data = false) :
    get_ips_from_string s = .ok (getIpsPure s) := by
  have hmemnul : ∀ t ∈ ((splitChars ',' s.data).map
      (fun t => lowerChars (stripChars t))).filter (fun t => !t.isEmpty),
      hasNulL t = false := by
    intro t ht
    rcases List.mem_filter.mp ht with ⟨ht1, _⟩
    rcases List.mem_map.mp ht1 with ⟨tok, htok, rfl⟩
    exact hasNulL_lowerChars (hasNulL_stripChars (hasNulL_of_mem_splitChars h htok))
  simp only [get_ips_from_string, getIpsPure]
  rcases hc : ((splitChars ',' s.data).map
      (fun t => lowerChars (stripChars t))).filter (fun t => !t.isEmpty) with _ | ⟨f, rest⟩
  · rw [hc]
  · rw [hc]
    dsimp only
    have hf : hasNulL f = false :=
      hmemnul f (by rw [hc]; exact List.mem_cons_self f rest)
    have hlast : hasNulL (rest.getLastD f) = false := by
      rcases getLastD_mem rest f with h1 | h1
      · rw [h1]; exact hf
      · exact hmemnul _ (by rw [hc]; exact List.mem_cons_of_mem f h1)
    rw [is_valid_ip_eq_pure (s := String.mk f) hf]
    cases hvf : isValidPure (String.mk f) with
    | false => simp
    | true =>
      rw [is_valid_ip_eq_pure (s := String.mk (rest.getLastD f)) hlast]
      cases hvl : isValidPure (String.mk (rest.getLastD f)) with
      | false => simp
      | true => simp

theorem get_ip_info_eq_pure (defs : IpwareDefs) (s : String) (h : hasNulL s.data = false) :
    get_ip_info defs s = .ok (getIpInfoPure defs s) := by
  simp only [get_ip_info, getIpInfoPure, cleanup_ip_eq_pure (hasNulL_stripChars h)]
  rw [is_valid_ip_eq_pure (hasNulL_cleanupPure h)]
  cases hv : isValidPure (cleanupPure s) with
  | false => simp
  | true => simp

/-! ### Claims C2, C3, C10: the selector `get_best_ip` -/

/-- C2: for every non-none `last_ip` and every `next_ip` (with their
normalized forms `cl` and `cn`), `get_best_ip` returns `last_ip` when the
normalized `last_ip` is public and the normalized `next_ip` is not
public; returns `last_ip` when the normalized `last_ip` is private and
the normalized `next_ip` is loopback; and in every other case returns
`next_ip` (rightmost wins by default). -/
theorem claim2_best_ip_policy (defs : IpwareDefs) (last next cl cn : String)
    (hl : cleanup_ip last = .ok cl) (hn : cleanup_ip next = .ok cn) :
    get_best_ip defs (some last) next =
      .ok (if is_public_ip defs cl && !is_public_ip defs cn then last
        else if is_private_ip defs cl && is_loopback_ip defs cn then last
        else next) :=
  get_best_ip_eq_policy defs last next cl cn hl hn

/-- Witness for C2: the spec's selector guard 1, evaluated with the
spec-modelled default configuration. -/
theorem claim2_witness :
    cleanup_ip (r"203.0.113.5") = .ok (r"203.0.113.5") ∧
    get_best_ip defaultDefs (some (r"203.0.113.5")) (r"10.0.0.1") = .ok (r"203.0.113.5") := by
  refine ⟨by decide, ?_⟩
  rw [claim2_best_ip_policy defaultDefs (r"203.0.113.5") (r"10.0.0.1") (r"203.0.113.5")
    (r"10.0.0.1") (by decide) (by decide)]
  decide

/-- C3 as stated is false: an empty-string `last_ip` is not treated as
absent.  At `last_ip = ""`, `next_ip = "10.0.0.1"` the code keeps `""`
(the empty string normalizes to itself, matches no non-public prefix and
is therefore classified public, so guard 1 fires), while the claim says
`next_ip` is returned unconditionally. -/
theorem claim3_counterexample :
    get_best_ip defaultDefs (some (r"")) (r"10.0.0.1") = .ok (r"") ∧
    get_best_ip defaultDefs (some (r"")) (r"10.0.0.1") ≠ .ok (r"10.0.0.1") := by
  decide

/-- C3 amended: only when the currently-held candidate `last_ip` is
Python `None` does `get_best_ip` return `next_ip` unconditionally (the
source tests `last_ip is None`; an empty string flows through
normalization and classification like any other string). -/
theorem claim3_none_last_adopts_next (defs : IpwareDefs) (next : String) :
    get_best_ip defs none next = .ok next := rfl

/-- C10: whenever `get_best_ip` returns, its value is one of its two
arguments exactly as passed in; normalization only decides which one
wins and the winner is returned un-normalized. -/
theorem claim10_returns_an_argument (defs : IpwareDefs) (last : Option String)
    (next r : String) (h : get_best_ip defs last next = .ok r) :
    r = next ∨ some r = last := by
  cases last with
  | none =>
    simp only [get_best_ip, Except.ok.injEq] at h
    exact Or.inl h.symm
  | some l =>
    simp only [get_best_ip] at h
    cases hc : cleanup_ip l with
    | error e => rw [hc] at h; simp at h
    | ok cl =>
      rw [hc] at h
      cases hn : cleanup_ip next with
      | error e => rw [hn] at h; simp at h
      | ok cn =>
        rw [hn] at h
        simp only [] at h
        split at h
        · exact Or.inr (by rw [Except.ok.inj h])
        · split at h
          · exact Or.inr (by rw [Except.ok.inj h])
          · exact Or.inl (Except.ok.inj h).symm

/-- Witness for C10: the spec's selector default case evaluated
concretely (both candidates private, the rightmost wins). -/
theorem claim10_witness :
    get_best_ip defaultDefs (some (r"10.0.0.1")) (r"10.0.0.2") = .ok (r"10.0.0.2") ∧
    ((r"10.0.0.2" : String) = (r"10.0.0.2") ∨
      some (r"10.0.0.2" : String) = some (r"10.0.0.1")) := by
  refine ⟨by decide, ?_⟩
  exact claim10_returns_an_argument defaultDefs (some (r"10.0.0.1")) (r"10.0.0.2")
    (r"10.0.0.2") (by decide)

/-! ### Claim C9: `get_request_meta` -/

/-- C9: for every metadata mapping and key, `get_request_meta` returns
the value found under the key as given, else the value found under the
key with every underscore replaced by a hyphen, else the empty default;
the result is whitespace-trimmed, and none is returned exactly when the
trimmed value is the empty string, otherwise the trimmed string is
returned. -/
theorem claim9_request_meta (meta : String → Option String) (key : String) :
    ((∀ v, meta key = some v →
        get_request_meta meta key =
          (if pyStripStr v = (r"") then none else some (pyStripStr v))) ∧
      (meta key = none → ∀ v, meta (underscoreToHyphen key) = some v →
        get_request_meta meta key =
          (if pyStripStr v = (r"") then none else some (pyStripStr v))) ∧
      (meta key = none → meta (underscoreToHyphen key) = none →
        get_request_meta meta key = none)) ∧
    (get_request_meta meta key = none ↔
      pyStripStr ((meta key).getD ((meta (underscoreToHyphen key)).getD (r""))) = (r"")) := by
  refine ⟨⟨fun v hv => ?_, fun h1 v hv => ?_, fun h1 h2 => ?_⟩, ?_⟩
  · simp [get_request_meta, hv]
  · simp [get_request_meta, h1, hv]
  · simp only [get_request_meta, h1, h2, Option.getD_none]
    rw [if_pos (by decide)]
  · unfold get_request_meta
    by_cases h : pyStripStr ((meta key).getD ((meta (underscoreToHyphen key)).getD (r""))) = (r"")
    · simp [h]
    · simp [h]

/-- Witness for C9: a concrete mapping carrying one populated key whose
value is trimmed and returned. -/
theorem claim9_witness :
    get_request_meta sampleMeta (r"REMOTE_ADDR") = some (r"177.139.233.139") := by
  rw [(claim9_request_meta sampleMeta (r"REMOTE_ADDR")).1.1 (r" 177.139.233.139 ") (by decide)]
  decide

/-! ### Claim C7: strictness of `is_valid_ipv4` -/

/-- C7: `is_valid_ipv4` accepts only strict fully-qualified dotted-quad
strings (every accepted string has exactly three dots), and the
shorthand form `127.1` is rejected. -/
theorem claim7_strict_dotted_quad :
    (∀ s : String, is_valid_ipv4 s = .ok true → s.data.count '.' = 3) ∧
    is_valid_ipv4 (r"127.1") = .ok false := by
  refine ⟨fun s h => ?_, by decide⟩
  unfold is_valid_ipv4 at h
  by_cases hn : hasNulL s.data = true
  · rw [if_pos hn] at h
    exact absurd h (by simp)
  · rw [if_neg hn] at h
    have h2 : (pton4pure s.data).isSome = true := Except.ok.inj h
    unfold pton4pure at h2
    by_cases hc : (splitChars '.' s.data).length = 4 ∧
        ∀ g ∈ splitChars '.' s.data, decGroupOk g = true ∧ decVal g ≤ 255
    · have hlen := splitChars_length '.' s.data
      omega
    · rw [if_neg hc] at h2
      simp at h2

/-- Witness for C7: a fully-qualified address is accepted and indeed
carries three dots. -/
theorem claim7_witness :
    is_valid_ipv4 (r"127.0.0.1") = .ok true ∧
    (r"127.0.0.1" : String).data.count '.' = 3 :=
  ⟨by decide, claim7_strict_dotted_quad.1 (r"127.0.0.1") (by decide)⟩

/-! ### Claim C1: totality and freedom from exceptions -/

/-- C1 as stated is false: a string holding an embedded null character
makes `socket.inet_pton` raise `ValueError` (CPython's argument
converter), and `ValueError` is not a `socket.error`, so it escapes
`is_valid_ipv4` (and every function calling it). -/
theorem claim1_counterexample :
    is_valid_ipv4 (String.mk ['1', nulChar]) = .error .valueError := by decide

/-- C1 amended: every function of the module is total and raises no
exception for every string input that contains no embedded null
character — including empty strings, pure whitespace and non-ASCII text.
(`is_private_ip`, `is_public_ip`, `is_loopback_ip` and
`get_request_meta` are embedded with pure types and can never raise;
`get_best_ip` with an absent `last_ip` never raises whatever `next_ip`
holds, since `next_ip` is returned before any parsing.) -/
theorem claim1_totality (s : String) (h : hasNulL s.data = false) :
    (∃ r, cleanup_ip s = .ok r) ∧ (∃ b, is_valid_ipv4 s = .ok b) ∧
    (∃ b, is_valid_ipv6 s = .ok b) ∧ (∃ b, is_valid_ip s = .ok b) ∧
    (∃ v, get_ips_from_string s = .ok v) ∧
    (∀ defs : IpwareDefs, ∃ v, get_ip_info defs s = .ok v) ∧
    (∀ (defs : IpwareDefs) (next : String), hasNulL next.data = false →
      ∃ r, get_best_ip defs (some s) next = .ok r) ∧
    (∀ (defs : IpwareDefs) (next : String), get_best_ip defs none next = .ok next) := by
  have hclean := cleanup_ip_eq_pure (hasNulL_stripChars (l := s.data) h)
  refine ⟨⟨_, hclean⟩, ⟨_, is_valid_ipv4_eq_pure h⟩, ⟨_, is_valid_ipv6_eq_pure h⟩,
    ⟨_, is_valid_ip_eq_pure h⟩, ⟨_, get_ips_eq_pure s h⟩,
    fun defs => ⟨_, get_ip_info_eq_pure defs s h⟩, fun defs next hn => ?_,
    fun defs next => rfl⟩
  have hcn := cleanup_ip_eq_pure (hasNulL_stripChars (l := next.data) hn)
  exact ⟨_, get_best_ip_eq_policy defs s next _ _ hclean hcn⟩

/-- Witness for C1: the amended totality, instantiated at a non-ASCII
whitespace-padded string and the default configuration. -/
theorem claim1_witness :
    (∃ r, cleanup_ip (r" café ") = .ok r) ∧
    (∃ v, get_ips_from_string (r" café ") = .ok v) ∧
    (∃ v, get_ip_info defaultDefs (r" café ") = .ok v) ∧
    (∃ r, get_best_ip defaultDefs (some (r" café ")) (r"") = .ok r) := by
  have h := claim1_totality (r" café ") (by decide)
  exact ⟨h.1, h.2.2.2.2.1, h.2.2.2.2.2.1 defaultDefs,
    h.2.2.2.2.2.2.1 defaultDefs (r"") (by decide)⟩

/-! ### Claim C4: structure of the normalizer -/

/-- C4 as stated ranges over every input string, but a string with an
embedded null character makes `cleanup_ip` raise `ValueError` instead of
returning the trimmed input. -/
theorem claim4_counterexample :
    cleanup_ip (String.mk ['1', '.', '2', '.', '3', '.', '4', nulChar]) =
      .error .valueError := by decide

/-- C4 amended: for every input string without an embedded null
character, `cleanup_ip` first trims whitespace; if the trimmed string
parses as IPv4 it returns the canonical dotted-decimal form; otherwise
if it parses as IPv6 it returns the canonical colon-hex form, except
that when that canonical form starts with `"::ffff:"` the pattern is
removed and the remainder returned without further validation; if
neither parse succeeds it returns the trimmed input unchanged
(`cleanupPure` is by definition exactly that branch structure). -/
theorem claim4_cleanup_structure (s : String) (h : hasNulL s.data = false) :
    cleanup_ip s = .ok (cleanupPure s) :=
  cleanup_ip_eq_pure (hasNulL_stripChars h)

/-- Witness for C4: the IPv4-mapped unwrap example of the claim,
`cleanup_ip("::ffff:192.168.1.1") = "192.168.1.1"`. -/
theorem claim4_witness :
    cleanup_ip (r"::ffff:192.168.1.1") = .ok (r"192.168.1.1") := by
  rw [claim4_cleanup_structure (r"::ffff:192.168.1.1") (by decide)]
  decide

/-! ### Claim C6: the chain parser -/

/-- C6 as stated ranges over every input string, but a token holding an
embedded null character makes the endpoint validity check raise
`ValueError` instead of returning the empty chain. -/
theorem claim6_counterexample :
    get_ips_from_string (String.mk [nulChar]) = .error .valueError ∧
    get_ips_from_string (String.mk [nulChar]) ≠ .ok ([], 0) := by decide

/-- C6 amended: for every input string without an embedded null
character, `get_ips_from_string` splits on commas, strips and
lower-cases each token, drops empty tokens preserving order; if the
resulting list is non-empty and both its first and last elements pass
`is_valid_ip` it returns that full list paired with its length, and
otherwise it returns the empty list paired with 0 (`getIpsPure` is by
definition exactly that computation). -/
theorem claim6_chain_endpoints (s : String) (h : hasNulL s.data = false) :
    get_ips_from_string s = .ok (getIpsPure s) :=
  get_ips_eq_pure s h

/-- Witness for C6: the two chain examples of the spec — a chain with an
invalid first entry is rejected whole, a chain with valid endpoints is
returned whole with its count. -/
theorem claim6_witness :
    get_ips_from_string (r"not-an-ip, 10.0.0.1") = .ok ([], 0) ∧
    get_ips_from_string (r"203.0.113.5, 10.0.0.1") =
      .ok ([r"203.0.113.5", r"10.0.0.1"], 2) := by
  constructor
  · rw [claim6_chain_endpoints (r"not-an-ip, 10.0.0.1") (by decide)]; decide
  · rw [claim6_chain_endpoints (r"203.0.113.5, 10.0.0.1") (by decide)]; decide

/-! ### Claim C8: the single-address resolver -/

/-- C8 as stated ranges over every input string, but a string with an
embedded null character makes `get_ip_info` raise `ValueError` instead
of returning the none/false pair. -/
theorem claim8_counterexample :
    get_ip_info defaultDefs (String.mk ['g', nulChar]) = .error .valueError ∧
    get_ip_info defaultDefs (String.mk ['g', nulChar]) ≠ .ok (none, false) := by decide

/-- C8 amended: for every input string without an embedded null
character, `get_ip_info` returns the normalized address paired with its
publicness when the normalized form passes `is_valid_ip`, and
`(none, false)` otherwise (`getIpInfoPure` is by definition exactly that
case split). -/
theorem claim8_ip_info (defs : IpwareDefs) (s : String) (h : hasNulL s.data = false) :
    get_ip_info defs s = .ok (getIpInfoPure defs s) :=
  get_ip_info_eq_pure defs s h

/-- Witness for C8: the two examples of the claim, `get_ip_info("")` and
`get_ip_info("garbage")` both yield none paired with false. -/
theorem claim8_witness :
    get_ip_info defaultDefs (r"") = .ok (none, false) ∧
    get_ip_info defaultDefs (r"garbage") = .ok (none, false) := by
  constructor
  · rw [claim8_ip_info defaultDefs (r"") (by decide)]; decide
  · rw [claim8_ip_info defaultDefs (r"garbage") (by decide)]; decide

/-! ### Round trip of the IPv4 printer and parser -/

set_option maxRecDepth 4000 in
theorem toDecChars_spec : ∀ b, b < 256 →
    decGroupOk (toDecChars b) = true ∧ decVal (toDecChars b) = b ∧
      '.' ∉ toDecChars b ∧ toDecChars b ≠ [] := by decide

theorem map_decVal_toDecChars {bs : List Nat} (h : ∀ b ∈ bs, b < 256) :
    (bs.map toDecChars).map decVal = bs := by
  induction bs with
  | nil => rfl
  | cons b rest ih =>
    simp only [List.map_cons]
    rw [(toDecChars_spec b (h b (List.mem_cons_self b rest))).2.1,
      ih (fun x hx => h x (List.mem_cons_of_mem b hx))]

theorem pton4pure_ntop4 {bs : List Nat} (h4 : bs.length = 4) (hb : ∀ b ∈ bs, b < 256) :
    pton4pure (ntop4chars bs) = some bs := by
  have hne : bs.map toDecChars ≠ [] := by
    intro hcon
    rw [List.map_eq_nil_iff] at hcon
    rw [hcon] at h4
    exact absurd h4 (by simp)
  have hdots : ∀ g ∈ bs.map toDecChars, '.' ∉ g := by
    intro g hg
    rcases List.mem_map.mp hg with ⟨b, hbm, rfl⟩
    exact (toDecChars_spec b (hb b hbm)).2.2.1
  have hsplit : splitChars '.' (joinSep '.' (bs.map toDecChars)) = bs.map toDecChars :=
    splitChars_joinSep hne hdots
  simp only [pton4pure, ntop4chars, hsplit]
  rw [if_pos ?side]
  case side =>
    refine ⟨by simp [h4], fun g hg => ?_⟩
    rcases List.mem_map.mp hg with ⟨b, hbm, rfl⟩
    have hs := toDecChars_spec b (hb b hbm)
    exact ⟨hs.1, by rw [hs.2.1]; exact Nat.lt_succ_iff.mp (hb b hbm)⟩
  rw [map_decVal_toDecChars hb]

theorem pton4pure_some {s : List Char} {bs : List Nat} (h : pton4pure s = some bs) :
    bs.length = 4 ∧ ∀ b ∈ bs, b < 256 := by
  simp only [pton4pure] at h
  split at h
  · rename_i hcond
    rcases Option.some.inj h with rfl
    constructor
    · simp [hcond.1]
    · intro b hbm
      rcases List.mem_map.mp hbm with ⟨g, hgm, rfl⟩
      have := (hcond.2 g hgm).2
      omega
  · exact absurd h (by simp)

/-! ### Round trip of the hex-piece printer and parser -/

theorem toHexChars_no_colon {w : Nat} : ':' ∉ toHexChars w := by
  intro h
  rcases mem_toHexChars h with ⟨d, hd, he⟩
  exact (hexDigitChar_facts d hd).2.2.1 he.symm

theorem toHexChars_no_dot {w : Nat} : '.' ∉ toHexChars w := by
  intro h
  rcases mem_toHexChars h with ⟨d, hd, he⟩
  exact (hexDigitChar_facts d hd).2.2.2.1 he.symm

theorem toHexChars_ne_nil {w : Nat} : toHexChars w ≠ [] := by
  unfold toHexChars
  cases hd : [hexDigitChar (w / 4096 % 16), hexDigitChar (w / 256 % 16),
      hexDigitChar (w / 16 % 16), hexDigitChar (w % 16)].dropWhile (· = '0') with
  | nil => simp
  | cons a as => simp

theorem toHexChars_len_le {w : Nat} : (toHexChars w).length ≤ 4 := by
  unfold toHexChars
  cases hd : [hexDigitChar (w / 4096 % 16), hexDigitChar (w / 256 % 16),
      hexDigitChar (w / 16 % 16), hexDigitChar (w % 16)].dropWhile (· = '0') with
  | nil => simp
  | cons a as =>
    have := (List.dropWhile_sublist (l := [hexDigitChar (w / 4096 % 16),
      hexDigitChar (w / 256 % 16), hexDigitChar (w / 16 % 16), hexDigitChar (w % 16)])
      (fun x => decide (x = '0'))).length_le
    rw [hd] at this
    simpa using this

theorem hexVal_toHexChars {w : Nat} (hw : w < 65536) : hexVal (toHexChars w) = w := by
  have hlt3 : w / 4096 % 16 < 16 := Nat.mod_lt _ (by omega)
  have hlt2 : w / 256 % 16 < 16 := Nat.mod_lt _ (by omega)
  have hlt1 : w / 16 % 16 < 16 := Nat.mod_lt _ (by omega)
  have hlt0 : w % 16 < 16 := Nat.mod_lt _ (by omega)
  have hv3 := (hexDigitChar_facts _ hlt3).2.2.2.2.2.1
  have hv2 := (hexDigitChar_facts _ hlt2).2.2.2.2.2.1
  have hv1 := (hexDigitChar_facts _ hlt1).2.2.2.2.2.1
  have hv0 := (hexDigitChar_facts _ hlt0).2.2.2.2.2.1
  have hz3 := (hexDigitChar_facts _ hlt3).2.2.2.2.2.2
  have hz2 := (hexDigitChar_facts _ hlt2).2.2.2.2.2.2
  have hz1 := (hexDigitChar_facts _ hlt1).2.2.2.2.2.2
  have hz0 := (hexDigitChar_facts _ hlt0).2.2.2.2.2.2
  by_cases h3 : w / 4096 % 16 = 0
  · by_cases h2 : w / 256 % 16 = 0
    · by_cases h1 : w / 16 % 16 = 0
      · by_cases h0 : w % 16 = 0
        · have htx : toHexChars w = ['0'] := by
            unfold toHexChars
            rw [List.dropWhile_cons, if_pos (by simp [hz3.mpr h3]),
              List.dropWhile_cons, if_pos (by simp [hz2.mpr h2]),
              List.dropWhile_cons, if_pos (by simp [hz1.mpr h1]),
              List.dropWhile_cons, if_pos (by simp [hz0.mpr h0])]
            rfl
          rw [htx]
          have : hexVal ['0'] = 0 := by decide
          rw [this]
          omega
        · have htx : toHexChars w = [hexDigitChar (w % 16)] := by
            unfold toHexChars
            rw [List.dropWhile_cons, if_pos (by simp [hz3.mpr h3]),
              List.dropWhile_cons, if_pos (by simp [hz2.mpr h2]),
              List.dropWhile_cons, if_pos (by simp [hz1.mpr h1]),
              List.dropWhile_cons, if_neg (by intro he; simp only [decide_eq_true_eq] at he; exact h0 (hz0.mp he))]
          rw [htx]
          simp only [hexVal, List.foldl_cons, List.foldl_nil, hv0]
          omega
      · have htx : toHexChars w = [hexDigitChar (w / 16 % 16), hexDigitChar (w % 16)] := by
          unfold toHexChars
          rw [List.dropWhile_cons, if_pos (by simp [hz3.mpr h3]),
            List.dropWhile_cons, if_pos (by simp [hz2.mpr h2]),
            List.dropWhile_cons, if_neg (by intro he; simp only [decide_eq_true_eq] at he; exact h1 (hz1.mp he))]
        rw [htx]
        simp only [hexVal, List.foldl_cons, List.foldl_nil, hv1, hv0]
        omega
    · have htx : toHexChars w = [hexDigitChar (w / 256 % 16), hexDigitChar (w / 16 % 16),
          hexDigitChar (w % 16)] := by
        unfold toHexChars
        rw [List.dropWhile_cons, if_pos (by simp [hz3.mpr h3]),
          List.dropWhile_cons, if_neg (by intro he; simp only [decide_eq_true_eq] at he; exact h2 (hz2.mp he))]
      rw [htx]
      simp only [hexVal, List.foldl_cons, List.foldl_nil, hv2, hv1, hv0]
      omega
  · have htx : toHexChars w = [hexDigitChar (w / 4096 % 16), hexDigitChar (w / 256 % 16),
        hexDigitChar (w / 16 % 16), hexDigitChar (w % 16)] := by
      unfold toHexChars
      rw [List.dropWhile_cons, if_neg (by intro he; simp only [decide_eq_true_eq] at he; exact h3 (hz3.mp he))]
    rw [htx]
    simp only [hexVal, List.foldl_cons, List.foldl_nil, hv3, hv2, hv1, hv0]
    omega

theorem hexGroupVal_toHexChars {w : Nat} (hw : w < 65536) :
    hexGroupVal (toHexChars w) = some w := by
  have hall : ∀ c ∈ toHexChars w, isHexC c = true := by
    intro c hc
    rcases mem_toHexChars hc with ⟨d, hd, rfl⟩
    exact (hexDigitChar_facts d hd).1
  have hlen4 : ((toHexChars w).dropWhile (· = '0')).length ≤ 4 :=
    le_trans (List.dropWhile_sublist _).length_le toHexChars_len_le
  unfold hexGroupVal
  rw [if_pos ⟨toHexChars_ne_nil, hall, hlen4⟩, hexVal_toHexChars hw]

/-! ### Double-colon splitting -/

theorem containsCC_of_no_colon {l : List Char} (h : ':' ∉ l) : containsCC l = false := by
  induction l with
  | nil => rfl
  | cons c cs ih =>
    cases cs with
    | nil => rfl
    | cons c2 rest =>
      have hc : c ≠ ':' := fun he => h (he ▸ List.mem_cons_self c _)
      rw [containsCC, if_neg (fun hp => hc hp.1)]
      exact ih (fun he => h (List.mem_cons_of_mem c he))

theorem containsCC_cons_false {c : Char} {cs : List Char}
    (h : containsCC (c :: cs) = false) : containsCC cs = false := by
  cases cs with
  | nil => rfl
  | cons c2 rest =>
    rw [containsCC] at h
    split at h
    · exact absurd h (by simp)
    · exact h

theorem containsCC_append_false {g t : List Char} (hg : ':' ∉ g)
    (ht : containsCC t = false) : containsCC (g ++ t) = false := by
  induction g with
  | nil => exact ht
  | cons x xs ih =>
    have hx : x ≠ ':' := fun he => hg (he ▸ List.mem_cons_self x xs)
    have hxs : ':' ∉ xs := fun he => hg (List.mem_cons_of_mem x he)
    cases xs with
    | nil =>
      cases t with
      | nil => rfl
      | cons c2 r =>
        rw [List.nil_append] at ih
        rw [List.cons_append, List.nil_append, containsCC, if_neg (fun hp => hx hp.1)]
        exact ht
    | cons y ys =>
      have hy : y ≠ ':' := fun he => hg (he ▸ List.mem_cons_of_mem x (List.mem_cons_self y ys))
      rw [List.cons_append, List.cons_append, containsCC, if_neg (fun hp => hx hp.1)]
      have := ih hxs
      rw [List.cons_append] at this
      exact this

theorem splitCC_eq_none {l : List Char} (h : containsCC l = false) : splitCC l = none := by
  induction l with
  | nil => rfl
  | cons c cs ih =>
    cases cs with
    | nil => rfl
    | cons c2 rest =>
      rw [containsCC] at h
      split at h
      · exact absurd h (by simp)
      · simp only [splitCC]
        rw [if_neg (by rename_i hcc; exact hcc), ih h]
        rfl

theorem splitCC_append {b : List Char} :
    ∀ {a : List Char}, containsCC a = false → (∀ x, a.getLast? = some x → x ≠ ':') →
      splitCC (a ++ ':' :: ':' :: b) = some (a, b) := by
  intro a
  induction a with
  | nil =>
    intro _ _
    rw [List.nil_append, splitCC, if_pos ⟨rfl, rfl⟩]
  | cons x xs ih =>
    intro hg hlast
    cases xs with
    | nil =>
      have hx : x ≠ ':' := hlast x rfl
      rw [List.cons_append, List.nil_append, splitCC, if_neg (fun hp => hx hp.1)]
      rw [splitCC, if_pos ⟨rfl, rfl⟩]
      rfl
    | cons y ys =>
      have hxy : ¬(x = ':' ∧ y = ':') := by
        rintro ⟨hx, hy⟩
        rw [containsCC, if_pos ⟨hx, hy⟩] at hg
        exact absurd hg (by simp)
      have hlast2 : ∀ z, (y :: ys).getLast? = some z → z ≠ ':' := by
        intro z hz
        exact hlast z (by rw [show x :: y :: ys = [x] ++ y :: ys from rfl,
          List.getLast?_append_of_ne_nil [x] (by simp)]; exact hz)
      rw [List.cons_append, List.cons_append, splitCC, if_neg (fun hp => hxy hp)]
      have := ih (containsCC_cons_false hg) hlast2
      rw [List.cons_append] at this
      rw [this]
      rfl

theorem getLast?_mem {α : Type} {l : List α} {x : α} (h : l.getLast? = some x) : x ∈ l := by
  rcases List.mem_getLast?_eq_getLast (show x ∈ l.getLast? from h) with ⟨hne, hx⟩
  rw [hx]
  exact List.getLast_mem hne

theorem head_mem_left {g t : List Char} {j : Char} {js : List Char} (hne : g ≠ [])
    (h : g ++ t = j :: js) : j ∈ g := by
  cases g with
  | nil => exact absurd rfl hne
  | cons a as =>
    rw [List.cons_append] at h
    rcases List.cons.inj h with ⟨rfl, _⟩
    exact List.mem_cons_self a as

theorem joinSep_cons_decomp (sep : Char) (g : List Char) (gs : List (List Char)) :
    joinSep sep (g :: gs) = g ++ (if gs = [] then [] else sep :: joinSep sep gs) := by
  cases gs with
  | nil => simp [joinSep]
  | cons g1 gs1 => simp [joinSep]

/-! ### Properties of `hexJoin` -/

theorem hexJoin_cons_cons (w w1 : Nat) (rest1 : List Nat) :
    hexJoin (w :: w1 :: rest1) = toHexChars w ++ ':' :: hexJoin (w1 :: rest1) := by
  simp [hexJoin, joinSep]

theorem hexJoin_ne_nil {ws : List Nat} (h : ws ≠ []) : hexJoin ws ≠ [] := by
  unfold hexJoin
  apply joinSep_ne_nil_of_ne
  · simp [h]
  · intro g hg
    rcases List.mem_map.mp hg with ⟨w, _, rfl⟩
    exact toHexChars_ne_nil

theorem hexJoin_head_ne_colon {ws : List Nat} {j : Char} {js : List Char}
    (h : hexJoin ws = j :: js) : j ≠ ':' := by
  cases ws with
  | nil => exact absurd h (by simp [hexJoin, joinSep])
  | cons w rest =>
    have hj : j ∈ toHexChars w := by
      cases rest with
      | nil =>
        simp only [hexJoin, List.map_cons, List.map_nil, joinSep] at h
        rw [h]
        exact List.mem_cons_self j js
      | cons w1 rest1 =>
        rw [hexJoin_cons_cons] at h
        exact head_mem_left toHexChars_ne_nil h
    intro he
    exact toHexChars_no_colon (he ▸ hj)

theorem hexJoin_noCC (ws : List Nat) : containsCC (hexJoin ws) = false := by
  induction ws with
  | nil => rfl
  | cons w rest ih =>
    cases rest with
    | nil =>
      exact containsCC_of_no_colon (by simp [hexJoin, joinSep]; exact toHexChars_no_colon)
    | cons w1 rest1 =>
      rw [hexJoin_cons_cons]
      apply containsCC_append_false toHexChars_no_colon
      cases hJ : hexJoin (w1 :: rest1) with
      | nil => exact absurd hJ (hexJoin_ne_nil (by simp))
      | cons j js =>
        rw [containsCC, if_neg (fun hp => hexJoin_head_ne_colon hJ hp.2)]
        rw [← hJ]
        exact ih

theorem hexJoin_getLast_ne_colon {ws : List Nat} :
    ∀ x, (hexJoin ws).getLast? = some x → x ≠ ':' := by
  induction ws with
  | nil => intro x hx; exact absurd hx (by simp [hexJoin, joinSep])
  | cons w rest ih =>
    intro x hx
    cases rest with
    | nil =>
      simp only [hexJoin, List.map_cons, List.map_nil, joinSep] at hx
      intro he
      exact toHexChars_no_colon (he ▸ getLast?_mem hx)
    | cons w1 rest1 =>
      rw [hexJoin_cons_cons] at hx
      rw [List.getLast?_append_of_ne_nil _ (by simp)] at hx
      rw [show (':' :: hexJoin (w1 :: rest1)) =
        [':'] ++ hexJoin (w1 :: rest1) from rfl] at hx
      rw [List.getLast?_append_of_ne_nil _ (hexJoin_ne_nil (by simp))] at hx
      exact ih x hx

/-! ### Properties of the best zero run -/

theorem bestRun_some {ws : List Nat} {b l : Nat} (h : bestRun ws = some (b, l)) :
    2 ≤ l ∧ b < ws.length ∧ b + l ≤ ws.length ∧
      (ws.drop b).takeWhile (fun w => w = 0) = List.replicate l 0 := by
  simp only [bestRun] at h
  split at h
  · exact absurd h (by simp)
  · rename_i hlen
    cases hf : (List.range ws.length).find? (fun i => runLenAt ws i = maxRunLen ws) with
    | none => rw [hf] at h; exact absurd h (by simp)
    | some b' =>
      rw [hf] at h
      have hb'b : b' = b := (Prod.mk.inj (Option.some.inj h)).1
      have hll : maxRunLen ws = l := (Prod.mk.inj (Option.some.inj h)).2
      subst hb'b
      have hp := List.find?_some hf
      simp only [decide_eq_true_eq] at hp
      have hrun : runLenAt ws b' = l := by rw [hp, hll]
      have hb : b' < ws.length := List.mem_range.mp (List.mem_of_find?_eq_some hf)
      have h2 : 2 ≤ l := by omega
      have hlenle : ((ws.drop b').takeWhile (fun w => w = 0)).length ≤ (ws.drop b').length :=
        (List.takeWhile_sublist _).length_le
      have hdroplen : (ws.drop b').length = ws.length - b' := List.length_drop b' ws
      unfold runLenAt at hrun
      refine ⟨h2, hb, by omega, ?_⟩
      rw [List.eq_replicate_iff]
      refine ⟨hrun, fun x hx => ?_⟩
      have := List.mem_takeWhile_imp hx
      simpa using this

theorem ws_decomp {ws : List Nat} {b l : Nat} (h : bestRun ws = some (b, l)) :
    ws = ws.take b ++ (List.replicate l 0 ++ ws.drop (b + l)) := by
  rcases bestRun_some h with ⟨_, _, _, htw⟩
  have hsplit : (ws.drop b).takeWhile (fun w => w = 0) ++
      (ws.drop b).dropWhile (fun w => w = 0) = ws.drop b :=
    List.takeWhile_append_dropWhile _ _
  have hlen : ((ws.drop b).takeWhile (fun w => w = 0)).length = l := by
    rw [htw]; simp
  have h1 : (ws.drop b).drop l = ws.drop (b + l) := by
    rw [List.drop_drop]
  have hdw : (ws.drop b).dropWhile (fun w => w = 0) = ws.drop (b + l) := by
    rw [← h1]
    conv_rhs => rw [← hsplit, ← hlen, List.drop_left]
  conv_lhs => rw [← List.take_append_drop b ws]
  congr 1
  rw [← hsplit, htw, hdw]

/-! ### Parsing the printed pieces back -/

theorem parseHexGroups_map {ws : List Nat} (hw : ∀ w ∈ ws, w < 65536) :
    parseHexGroups (ws.map toHexChars) = some ws := by
  induction ws with
  | nil => rfl
  | cons w rest ih =>
    rw [List.map_cons, parseHexGroups,
      hexGroupVal_toHexChars (hw w (List.mem_cons_self w rest)),
      ih (fun x hx => hw x (List.mem_cons_of_mem w hx))]

theorem parseTailGroups_cons_cons (g g1 : List Char) (gs2 : List (List Char)) :
    parseTailGroups (g :: g1 :: gs2) =
      match hexGroupVal g, parseTailGroups (g1 :: gs2) with
      | some w, some ws => some (w :: ws)
      | _, _ => none := rfl

theorem parseTailGroups_eq_hex : ∀ {gs : List (List Char)}, (∀ g ∈ gs, '.' ∉ g) →
    parseTailGroups gs = parseHexGroups gs := by
  intro gs
  induction gs with
  | nil => intro _; rfl
  | cons g gs1 ih =>
    intro hd
    cases gs1 with
    | nil =>
      rw [parseTailGroups, if_neg (hd g (List.mem_cons_self g []))]
      rw [parseHexGroups, parseHexGroups]
      cases hexGroupVal g <;> rfl
    | cons g1 gs2 =>
      rw [parseTailGroups_cons_cons, parseHexGroups,
        ih (fun x hx => hd x (List.mem_cons_of_mem g hx))]

theorem parseTailGroups_map {ws : List Nat} (hw : ∀ w ∈ ws, w < 65536) :
    parseTailGroups (ws.map toHexChars) = some ws := by
  rw [parseTailGroups_eq_hex, parseHexGroups_map hw]
  intro g hg
  rcases List.mem_map.mp hg with ⟨w, _, rfl⟩
  exact toHexChars_no_dot

theorem groupsOf_hexJoin {ws : List Nat} (h : ws ≠ []) :
    groupsOf (hexJoin ws) = ws.map toHexChars := by
  unfold groupsOf
  rw [if_neg (hexJoin_ne_nil h)]
  apply splitChars_joinSep
  · simp [h]
  · intro g hg
    rcases List.mem_map.mp hg with ⟨w, _, rfl⟩
    exact toHexChars_no_colon

/-! ### Bounds on parsed words -/

theorem hexDigitVal_lt {c : Char} (h : isHexC c = true) : hexDigitVal c < 16 := by
  simp only [isHexC, isDigitC, Bool.or_eq_true, Bool.and_eq_true, decide_eq_true_eq] at h
  unfold hexDigitVal
  split
  · omega
  · split <;> omega

theorem hexVal_cons_zero (g : List Char) : hexVal ('0' :: g) = hexVal g := by
  show List.foldl _ (16 * 0 + hexDigitVal '0') g = List.foldl _ 0 g
  norm_num
  rfl

theorem hexVal_dropWhile (g : List Char) : hexVal g = hexVal (g.dropWhile (· = '0')) := by
  induction g with
  | nil => rfl
  | cons c cs ih =>
    rw [List.dropWhile_cons]
    by_cases hc : c = '0'
    · rw [if_pos (by simp [hc]), ← ih, hc, hexVal_cons_zero]
    · rw [if_neg (by simp [hc])]

theorem foldlHex_lt : ∀ (g : List Char) (a : Nat), (∀ c ∈ g, isHexC c = true) →
    List.foldl (fun a c => 16 * a + hexDigitVal c) a g < (a + 1) * 16 ^ g.length := by
  intro g
  induction g with
  | nil => intro a _; simp
  | cons c cs ih =>
    intro a hall
    rw [List.foldl_cons]
    have h1 := ih (16 * a + hexDigitVal c) (fun x hx => hall x (List.mem_cons_of_mem c hx))
    have h2 : hexDigitVal c < 16 := hexDigitVal_lt (hall c (List.mem_cons_self c cs))
    have h3 : (16 * a + hexDigitVal c + 1) * 16 ^ cs.length ≤ (a + 1) * 16 ^ (c :: cs).length := by
      rw [List.length_cons, pow_succ]
      calc (16 * a + hexDigitVal c + 1) * 16 ^ cs.length
          ≤ ((a + 1) * 16) * 16 ^ cs.length := by
            apply Nat.mul_le_mul_right
            omega
        _ = (a + 1) * (16 ^ cs.length * 16) := by ring
    exact lt_of_lt_of_le h1 h3

theorem hexGroupVal_some_lt {g : List Char} {w : Nat} (h : hexGroupVal g = some w) :
    w < 65536 := by
  unfold hexGroupVal at h
  split at h
  · rename_i hcond
    rcases Option.some.inj h with rfl
    rw [hexVal_dropWhile]
    have hsub : ∀ c ∈ g.dropWhile (· = '0'), isHexC c = true :=
      fun c hc => hcond.2.1 c ((List.dropWhile_sublist _).mem hc)
    have h1 := foldlHex_lt (g.dropWhile (· = '0')) 0 hsub
    have h2 : (16 : Nat) ^ (g.dropWhile (· = '0')).length ≤ 16 ^ 4 :=
      Nat.pow_le_pow_right (by omega) hcond.2.2
    unfold hexVal
    omega
  · exact absurd h (by simp)

theorem parseHexGroups_some : ∀ {gs : List (List Char)} {ws : List Nat},
    parseHexGroups gs = some ws → ws.length = gs.length ∧ ∀ w ∈ ws, w < 65536 := by
  intro gs
  induction gs with
  | nil =>
    intro ws h
    rcases Option.some.inj h with rfl
    simp
  | cons g gs1 ih =>
    intro ws h
    rw [parseHexGroups] at h
    cases hg : hexGroupVal g with
    | none => rw [hg] at h; exact absurd h (by simp)
    | some w =>
      rw [hg] at h
      cases hrest : parseHexGroups gs1 with
      | none => rw [hrest] at h; exact absurd h (by simp)
      | some ws1 =>
        rw [hrest] at h
        rcases Option.some.inj h with rfl
        rcases ih hrest with ⟨hlen, hbound⟩
        refine ⟨by simp [hlen], fun x hx => ?_⟩
        rcases List.mem_cons.mp hx with h1 | h1
        · exact h1 ▸ hexGroupVal_some_lt hg
        · exact hbound x h1

theorem parseTailGroups_some : ∀ {gs : List (List Char)} {ws : List Nat},
    parseTailGroups gs = some ws → ∀ w ∈ ws, w < 65536 := by
  intro gs
  induction gs with
  | nil =>
    intro ws h
    rcases Option.some.inj h with rfl
    simp
  | cons g gs1 ih =>
    intro ws h
    cases gs1 with
    | nil =>
      rw [parseTailGroups] at h
      by_cases hdot : '.' ∈ g
      · rw [if_pos hdot] at h
        cases hp : pton4pure g with
        | none => rw [hp] at h; exact absurd h (by simp)
        | some bs =>
          rw [hp] at h
          rcases Option.some.inj h with rfl
          rcases pton4pure_some hp with ⟨hlen, hb⟩
          intro w hw
          cases bs with
          | nil => simp at hlen
          | cons b0 bs1 =>
            cases bs1 with
            | nil => simp at hlen
            | cons b1 bs2 =>
              cases bs2 with
              | nil => simp at hlen
              | cons b2 bs3 =>
                cases bs3 with
                | nil => simp at hlen
                | cons b3 bs4 =>
                  cases bs4 with
                  | nil =>
                    have hb0 := hb b0 (by simp)
                    have hb1 := hb b1 (by simp)
                    have hb2 := hb b2 (by simp)
                    have hb3 := hb b3 (by simp)
                    simp only [bytesToWords, List.mem_cons, List.not_mem_nil, or_false] at hw
                    rcases hw with h1 | h1 <;> omega
                  | cons b4 bs5 => simp at hlen
      · rw [if_neg hdot] at h
        cases hg : hexGroupVal g with
        | none => rw [hg] at h; exact absurd h (by simp)
        | some w =>
          rw [hg] at h
          rcases Option.some.inj h with rfl
          intro x hx
          simp only [List.mem_singleton] at hx
          exact hx ▸ hexGroupVal_some_lt hg
    | cons g1 gs2 =>
      rw [parseTailGroups_cons_cons] at h
      cases hg : hexGroupVal g with
      | none => rw [hg] at h; exact absurd h (by simp)
      | some w =>
        rw [hg] at h
        cases hrest : parseTailGroups (g1 :: gs2) with
        | none => rw [hrest] at h; exact absurd h (by simp)
        | some ws1 =>
          rw [hrest] at h
          rcases Option.some.inj h with rfl
          intro x hx
          rcases List.mem_cons.mp hx with h1 | h1
          · exact h1 ▸ hexGroupVal_some_lt hg
          · exact ih hrest x h1

theorem pton6pure_some {s : List Char} {ws : List Nat} (h : pton6pure s = some ws) :
    ws.length = 8 ∧ ∀ w ∈ ws, w < 65536 := by
  unfold pton6pure at h
  cases hcc : splitCC s with
  | none =>
    rw [hcc] at h
    cases hp : parseTailGroups (splitChars ':' s) with
    | none => rw [hp] at h; exact absurd h (by simp)
    | some ws1 =>
      rw [hp] at h
      have h2 : (if ws1.length = 8 then some ws1 else (none : Option (List Nat))) =
        some ws := h
      split at h2
      · rename_i hlen
        rcases Option.some.inj h2 with rfl
        exact ⟨hlen, parseTailGroups_some hp⟩
      · exact absurd h2 (by simp)
  | some p =>
    obtain ⟨a, b⟩ := p
    rw [hcc] at h
    have h2 : (if containsCC b = true then (none : Option (List Nat))
        else match parseHexGroups (groupsOf a), parseTailGroups (groupsOf b) with
          | some wl, some wr =>
            if wl.length + wr.length < 8 then
              some (wl ++ List.replicate (8 - wl.length - wr.length) 0 ++ wr)
            else none
          | _, _ => none) = some ws := h
    clear h
    split at h2
    · exact absurd h2 (by simp)
    · cases hl : parseHexGroups (groupsOf a) with
      | none => rw [hl] at h2; exact absurd h2 (by simp)
      | some wl =>
        rw [hl] at h2
        cases hr : parseTailGroups (groupsOf b) with
        | none => rw [hr] at h2; exact absurd h2 (by simp)
        | some wr =>
          rw [hr] at h2
          have h3 : (if wl.length + wr.length < 8 then
              some (wl ++ List.replicate (8 - wl.length - wr.length) 0 ++ wr)
            else (none : Option (List Nat))) = some ws := h2
          split at h3
          · rename_i hlt
            rcases Option.some.inj h3 with rfl
            constructor
            · simp only [List.length_append, List.length_replicate]
              omega
            · intro x hx
              rcases List.mem_append.mp hx with h1 | h1
              · rcases List.mem_append.mp h1 with h2 | h2
                · exact (parseHexGroups_some hl).2 x h2
                · rw [List.eq_of_mem_replicate h2]
                  omega
              · exact parseTailGroups_some hr x h1
          · exact absurd h3 (by simp)

/-! ### Shape of `ntop6chars` in each case -/

theorem ntop6chars_eq_of_none {ws : List Nat} (h : bestRun ws = none) :
    ntop6chars ws = hexJoin ws := by
  unfold ntop6chars
  rw [h]

theorem ntop6chars_eq_of_encap {ws : List Nat} {b l : Nat} (h : bestRun ws = some (b, l))
    (henc : b = 0 ∧ (l = 6 ∨ (l = 5 ∧ ws.getD 5 0 = 0xffff))) :
    ntop6chars ws = (if l = 5 then [':', ':', 'f', 'f', 'f', 'f', ':'] else [':', ':']) ++
      ntop4chars (tailBytes (ws.drop 6)) := by
  unfold ntop6chars
  rw [h]
  show (if b = 0 ∧ (l = 6 ∨ (l = 5 ∧ ws.getD 5 0 = 0xffff)) then _ else _) = _
  rw [if_pos henc]

theorem ntop6chars_eq_of_run {ws : List Nat} {b l : Nat} (h : bestRun ws = some (b, l))
    (henc : ¬(b = 0 ∧ (l = 6 ∨ (l = 5 ∧ ws.getD 5 0 = 0xffff)))) :
    ntop6chars ws = hexJoin (ws.take b) ++ ':' :: ':' :: hexJoin (ws.drop (b + l)) := by
  unfold ntop6chars
  rw [h]
  show (if b = 0 ∧ (l = 6 ∨ (l = 5 ∧ ws.getD 5 0 = 0xffff)) then _ else _) = _
  rw [if_neg henc]

/-! ### Facts about the printed IPv4 tail -/

theorem sep_mem_joinSep {sep : Char} {g g1 : List Char} {gs : List (List Char)} :
    sep ∈ joinSep sep (g :: g1 :: gs) := by
  rw [joinSep_cons_decomp, if_neg (by simp)]
  exact List.mem_append.mpr (Or.inr (List.mem_cons_self sep _))

theorem ntop4chars_ne_nil {bs : List Nat} (h : bs ≠ []) : ntop4chars bs ≠ [] := by
  unfold ntop4chars
  apply joinSep_ne_nil_of_ne (by simp [h])
  intro g hg
  rcases List.mem_map.mp hg with ⟨x, _, rfl⟩
  unfold toDecChars
  cases hd : [decDigitChar (x / 100 % 10), decDigitChar (x / 10 % 10),
      decDigitChar (x % 10)].dropWhile (· = '0') with
  | nil => simp
  | cons a as => simp

theorem ntop4chars_no_colon {bs : List Nat} : ':' ∉ ntop4chars bs := by
  intro h
  rcases ntop4chars_good ':' h with h1 | h1
  · exact absurd ((isDigitC_facts h1).1 rfl) (fun x => x)
  · exact absurd h1 (by decide)

theorem dot_mem_ntop4chars {bs : List Nat} (h : bs.length = 4) : '.' ∈ ntop4chars bs := by
  unfold ntop4chars
  cases bs with
  | nil => simp at h
  | cons b0 t0 =>
    cases t0 with
    | nil => simp at h
    | cons b1 t1 =>
      rw [List.map_cons, List.map_cons]
      exact sep_mem_joinSep

theorem ntop4chars_head_digit {bs : List Nat} {j : Char} {js : List Char} (hb : bs ≠ [])
    (h : ntop4chars bs = j :: js) : isDigitC j = true := by
  have hj : j ∈ ntop4chars bs := by rw [h]; exact List.mem_cons_self j js
  rcases ntop4chars_good j hj with h1 | h1
  · exact h1
  · cases bs with
    | nil => exact absurd rfl hb
    | cons b0 t0 =>
      have hjg : j ∈ toDecChars b0 := by
        unfold ntop4chars at h
        rw [List.map_cons, joinSep_cons_decomp] at h
        apply head_mem_left ?hne h
        unfold toDecChars
        cases hd : [decDigitChar (b0 / 100 % 10), decDigitChar (b0 / 10 % 10),
            decDigitChar (b0 % 10)].dropWhile (· = '0') with
        | nil => simp
        | cons a as => simp
      rcases mem_toDecChars hjg with ⟨d, hd, rfl⟩
      exact absurd h1 (decDigitChar_facts d hd).2.2.2.1

theorem containsCC_colon_cons_ntop4 {bs : List Nat} (hb : bs ≠ []) :
    containsCC (':' :: ntop4chars bs) = false := by
  cases hv : ntop4chars bs with
  | nil => rfl
  | cons d rest =>
    rw [containsCC, if_neg ?hd]
    · rw [← hv]
      exact containsCC_of_no_colon ntop4chars_no_colon
    case hd =>
      rintro ⟨_, hdc⟩
      have := ntop4chars_head_digit hb hv
      rw [hdc] at this
      exact absurd this (by decide)

/-! ### Evaluation of `pton6pure` -/

theorem pton6pure_eval_nocc {s : List Char} (hsp : splitCC s = none) {ws : List Nat}
    (hp : parseTailGroups (splitChars ':' s) = some ws) (h8 : ws.length = 8) :
    pton6pure s = some ws := by
  unfold pton6pure
  rw [hsp]
  show (match parseTailGroups (splitChars ':' s) with
    | some ws => if ws.length = 8 then some ws else none
    | none => none) = some ws
  rw [hp]
  show (if ws.length = 8 then some ws else none) = some ws
  rw [if_pos h8]

theorem pton6pure_eval_cc {s A B : List Char} (hsp : splitCC s = some (A, B))
    (hB : containsCC B = false) {wl wr : List Nat}
    (hA : parseHexGroups (groupsOf A) = some wl)
    (hBp : parseTailGroups (groupsOf B) = some wr)
    (hlt : wl.length + wr.length < 8) :
    pton6pure s = some (wl ++ List.replicate (8 - wl.length - wr.length) 0 ++ wr) := by
  unfold pton6pure
  rw [hsp]
  show (if containsCC B = true then (none : Option (List Nat))
    else match parseHexGroups (groupsOf A), parseTailGroups (groupsOf B) with
      | some wl, some wr =>
        if wl.length + wr.length < 8 then
          some (wl ++ List.replicate (8 - wl.length - wr.length) 0 ++ wr)
        else none
      | _, _ => none) = _
  rw [if_neg (by simp [hB]), hA, hBp]
  show (if wl.length + wr.length < 8 then
      some (wl ++ List.replicate (8 - wl.length - wr.length) 0 ++ wr)
    else none) = _
  rw [if_pos hlt]

/-! ### Round trip of `ntop6chars` through `pton6pure`, case by case -/

theorem pton6_ntop6_none {ws : List Nat} (h8 : ws.length = 8) (hw : ∀ w ∈ ws, w < 65536)
    (hbr : bestRun ws = none) : pton6pure (ntop6chars ws) = some ws := by
  rw [ntop6chars_eq_of_none hbr]
  have hne : ws ≠ [] := by intro hc; rw [hc] at h8; simp at h8
  have hsp : splitChars ':' (hexJoin ws) = ws.map toHexChars := by
    unfold hexJoin
    apply splitChars_joinSep (by simp [hne])
    intro g hg
    rcases List.mem_map.mp hg with ⟨w, _, rfl⟩
    exact toHexChars_no_colon
  apply pton6pure_eval_nocc (splitCC_eq_none (hexJoin_noCC ws))
  · rw [hsp]
    exact parseTailGroups_map hw
  · exact h8

theorem pton6_ntop6_run {ws : List Nat} {b l : Nat} (h8 : ws.length = 8)
    (hw : ∀ w ∈ ws, w < 65536) (hbr : bestRun ws = some (b, l))
    (henc : ¬(b = 0 ∧ (l = 6 ∨ (l = 5 ∧ ws.getD 5 0 = 0xffff)))) :
    pton6pure (ntop6chars ws) = some ws := by
  rw [ntop6chars_eq_of_run hbr henc]
  rcases bestRun_some hbr with ⟨hl2, hblt, hble, _⟩
  have hwt : ∀ w ∈ ws.take b, w < 65536 :=
    fun w hwm => hw w ((List.take_sublist b ws).mem hwm)
  have hwd : ∀ w ∈ ws.drop (b + l), w < 65536 :=
    fun w hwm => hw w ((List.drop_sublist (b + l) ws).mem hwm)
  have hsp : splitCC (hexJoin (ws.take b) ++ ':' :: ':' :: hexJoin (ws.drop (b + l))) =
      some (hexJoin (ws.take b), hexJoin (ws.drop (b + l))) :=
    splitCC_append (hexJoin_noCC _) hexJoin_getLast_ne_colon
  have hA : parseHexGroups (groupsOf (hexJoin (ws.take b))) = some (ws.take b) := by
    cases hcase : ws.take b with
    | nil => rfl
    | cons w t =>
      rw [← hcase, groupsOf_hexJoin (by rw [hcase]; simp), parseHexGroups_map hwt]
  have hB : parseTailGroups (groupsOf (hexJoin (ws.drop (b + l)))) =
      some (ws.drop (b + l)) := by
    cases hcase : ws.drop (b + l) with
    | nil => rfl
    | cons w t =>
      rw [← hcase, groupsOf_hexJoin (by rw [hcase]; simp)]
      rw [parseTailGroups_eq_hex (fun g hg => by
        rcases List.mem_map.mp hg with ⟨w', _, rfl⟩
        exact toHexChars_no_dot)]
      exact parseHexGroups_map hwd
  have hta : (ws.take b).length = b := by rw [List.length_take]; omega
  have hda : (ws.drop (b + l)).length = 8 - (b + l) := by rw [List.length_drop, h8]
  rw [pton6pure_eval_cc hsp (hexJoin_noCC _) hA hB (by rw [hta, hda]; omega)]
  congr 1
  rw [hta, hda]
  have harith : 8 - b - (8 - (b + l)) = l := by omega
  rw [harith, List.append_assoc]
  exact (ws_decomp hbr).symm

theorem pton6_ntop6_encap {ws : List Nat} {b l : Nat} (h8 : ws.length = 8)
    (hw : ∀ w ∈ ws, w < 65536) (hbr : bestRun ws = some (b, l))
    (henc : b = 0 ∧ (l = 6 ∨ (l = 5 ∧ ws.getD 5 0 = 0xffff))) :
    pton6pure (ntop6chars ws) = some ws := by
  rw [ntop6chars_eq_of_encap hbr henc]
  obtain ⟨hb0, hl⟩ := henc
  subst hb0
  have hdec := ws_decomp hbr
  rw [List.take_zero, List.nil_append] at hdec
  have hd6len : (ws.drop 6).length = 2 := by rw [List.length_drop, h8]
  obtain ⟨w6, w7, hd6⟩ : ∃ w6 w7, ws.drop 6 = [w6, w7] := by
    cases hc : ws.drop 6 with
    | nil => rw [hc] at hd6len; simp at hd6len
    | cons a t =>
      cases t with
      | nil => rw [hc] at hd6len; simp at hd6len
      | cons a2 t2 =>
        cases t2 with
        | nil => exact ⟨a, a2, rfl⟩
        | cons a3 t3 => rw [hc] at hd6len; simp at hd6len
  have hw6 : w6 < 65536 :=
    hw w6 ((List.drop_sublist 6 ws).mem (by rw [hd6]; exact List.mem_cons_self _ _))
  have hw7 : w7 < 65536 :=
    hw w7 ((List.drop_sublist 6 ws).mem
      (by rw [hd6]; exact List.mem_cons_of_mem _ (List.mem_cons_self _ _)))
  have hbytes : tailBytes (ws.drop 6) =
      [w6 / 256 % 256, w6 % 256, w7 / 256 % 256, w7 % 256] := by
    rw [hd6]
    rfl
  have hbne : ([w6 / 256 % 256, w6 % 256, w7 / 256 % 256, w7 % 256] : List Nat) ≠ [] := by
    simp
  have hblt4 : ∀ x ∈ ([w6 / 256 % 256, w6 % 256, w7 / 256 % 256, w7 % 256] : List Nat),
      x < 256 := by
    intro x hx
    simp only [List.mem_cons, List.not_mem_nil, or_false] at hx
    rcases hx with h1 | h1 | h1 | h1 <;> omega
  have hp4 : pton4pure (ntop4chars [w6 / 256 % 256, w6 % 256, w7 / 256 % 256, w7 % 256]) =
      some [w6 / 256 % 256, w6 % 256, w7 / 256 % 256, w7 % 256] :=
    pton4pure_ntop4 (by simp) hblt4
  have hv4ne : ntop4chars [w6 / 256 % 256, w6 % 256, w7 / 256 % 256, w7 % 256] ≠ [] :=
    ntop4chars_ne_nil hbne
  have hnc : ':' ∉ ntop4chars [w6 / 256 % 256, w6 % 256, w7 / 256 % 256, w7 % 256] :=
    ntop4chars_no_colon
  have hdot : '.' ∈ ntop4chars [w6 / 256 % 256, w6 % 256, w7 / 256 % 256, w7 % 256] :=
    dot_mem_ntop4chars (by simp)
  have hbw : bytesToWords [w6 / 256 % 256, w6 % 256, w7 / 256 % 256, w7 % 256] =
      [w6, w7] := by
    show [256 * (w6 / 256 % 256) + w6 % 256, 256 * (w7 / 256 % 256) + w7 % 256] = [w6, w7]
    have e6 : 256 * (w6 / 256 % 256) + w6 % 256 = w6 := by omega
    have e7 : 256 * (w7 / 256 % 256) + w7 % 256 = w7 := by omega
    rw [e6, e7]
  have hptail : parseTailGroups
      [ntop4chars [w6 / 256 % 256, w6 % 256, w7 / 256 % 256, w7 % 256]] =
      some [w6, w7] := by
    rw [parseTailGroups, if_pos hdot, hp4]
    show some (bytesToWords [w6 / 256 % 256, w6 % 256, w7 / 256 % 256, w7 % 256]) = _
    rw [hbw]
  have hgv4 : groupsOf (ntop4chars [w6 / 256 % 256, w6 % 256, w7 / 256 % 256, w7 % 256]) =
      [ntop4chars [w6 / 256 % 256, w6 % 256, w7 / 256 % 256, w7 % 256]] := by
    unfold groupsOf
    rw [if_neg hv4ne, splitChars_of_not_mem hnc]
  rw [hbytes]
  rcases hl with hl6 | ⟨hl5, hff⟩
  · subst hl6
    rw [if_neg (by omega)]
    rw [show ([':', ':'] : List Char) ++
      ntop4chars [w6 / 256 % 256, w6 % 256, w7 / 256 % 256, w7 % 256] =
      ':' :: ':' :: ntop4chars [w6 / 256 % 256, w6 % 256, w7 / 256 % 256, w7 % 256] from rfl]
    have hspcc : splitCC (':' :: ':' ::
        ntop4chars [w6 / 256 % 256, w6 % 256, w7 / 256 % 256, w7 % 256]) =
        some ([], ntop4chars [w6 / 256 % 256, w6 % 256, w7 / 256 % 256, w7 % 256]) := by
      rw [splitCC, if_pos ⟨rfl, rfl⟩]
    rw [pton6pure_eval_cc hspcc (containsCC_of_no_colon hnc) rfl
      (by rw [hgv4]; exact hptail) (by simp)]
    congr 1
    rw [hd6] at hdec
    simpa using hdec.symm
  · subst hl5
    rw [if_pos rfl]
    have hd5len : (ws.drop 5).length = 3 := by rw [List.length_drop, h8]
    obtain ⟨w5, hd5⟩ : ∃ w5, ws.drop 5 = [w5, w6, w7] := by
      have hdd : (ws.drop 5).drop 1 = ws.drop 6 := by rw [List.drop_drop]
      cases hc : ws.drop 5 with
      | nil => rw [hc] at hd5len; simp at hd5len
      | cons a t =>
        rw [hc] at hdd
        simp only [List.drop_succ_cons, List.drop_zero] at hdd
        exact ⟨a, by rw [hdd, hd6]⟩
    have hw5v : w5 = 65535 := by
      have hg5 : ws.getD 5 0 = w5 := by
        rw [hdec, hd5]
        rfl
      rw [hg5] at hff
      exact hff
    rw [show ([':', ':', 'f', 'f', 'f', 'f', ':'] : List Char) ++
      ntop4chars [w6 / 256 % 256, w6 % 256, w7 / 256 % 256, w7 % 256] =
      ':' :: ':' :: ('f' :: 'f' :: 'f' :: 'f' :: ':' ::
        ntop4chars [w6 / 256 % 256, w6 % 256, w7 / 256 % 256, w7 % 256]) from rfl]
    have hspcc : splitCC (':' :: ':' :: ('f' :: 'f' :: 'f' :: 'f' :: ':' ::
        ntop4chars [w6 / 256 % 256, w6 % 256, w7 / 256 % 256, w7 % 256])) =
        some ([], 'f' :: 'f' :: 'f' :: 'f' :: ':' ::
          ntop4chars [w6 / 256 % 256, w6 % 256, w7 / 256 % 256, w7 % 256]) := by
      rw [splitCC, if_pos ⟨rfl, rfl⟩]
    have hccr : containsCC ('f' :: 'f' :: 'f' :: 'f' :: ':' ::
        ntop4chars [w6 / 256 % 256, w6 % 256, w7 / 256 % 256, w7 % 256]) = false := by
      rw [show ('f' :: 'f' :: 'f' :: 'f' :: ':' ::
        ntop4chars [w6 / 256 % 256, w6 % 256, w7 / 256 % 256, w7 % 256]) =
        ['f', 'f', 'f', 'f'] ++ (':' ::
          ntop4chars [w6 / 256 % 256, w6 % 256, w7 / 256 % 256, w7 % 256]) from rfl]
      exact containsCC_append_false (by decide) (containsCC_colon_cons_ntop4 hbne)
    have hgr : groupsOf ('f' :: 'f' :: 'f' :: 'f' :: ':' ::
        ntop4chars [w6 / 256 % 256, w6 % 256, w7 / 256 % 256, w7 % 256]) =
        [['f', 'f', 'f', 'f'],
          ntop4chars [w6 / 256 % 256, w6 % 256, w7 / 256 % 256, w7 % 256]] := by
      unfold groupsOf
      rw [if_neg (by simp)]
      rw [show ('f' :: 'f' :: 'f' :: 'f' :: ':' ::
        ntop4chars [w6 / 256 % 256, w6 % 256, w7 / 256 % 256, w7 % 256]) =
        ['f', 'f', 'f', 'f'] ++ ':' ::
          ntop4chars [w6 / 256 % 256, w6 % 256, w7 / 256 % 256, w7 % 256] from rfl]
      rw [splitChars_append_cons (by decide), splitChars_of_not_mem hnc]
    have hpr : parseTailGroups [['f', 'f', 'f', 'f'],
        ntop4chars [w6 / 256 % 256, w6 % 256, w7 / 256 % 256, w7 % 256]] =
        some [65535, w6, w7] := by
      rw [parseTailGroups_cons_cons, hptail,
        show hexGroupVal ['f', 'f', 'f', 'f'] = some 65535 from by decide]
    rw [pton6pure_eval_cc hspcc hccr rfl (by rw [hgr]; exact hpr) (by simp)]
    congr 1
    rw [hd5] at hdec
    rw [hdec, hw5v]
    simp

theorem pton6_ntop6 {ws : List Nat} (h8 : ws.length = 8) (hw : ∀ w ∈ ws, w < 65536) :
    pton6pure (ntop6chars ws) = some ws := by
  cases hbr : bestRun ws with
  | none => exact pton6_ntop6_none h8 hw hbr
  | some bl =>
    obtain ⟨b, l⟩ := bl
    by_cases henc : b = 0 ∧ (l = 6 ∨ (l = 5 ∧ ws.getD 5 0 = 0xffff))
    · exact pton6_ntop6_encap h8 hw hbr henc
    · exact pton6_ntop6_run h8 hw hbr henc

/-! ### Idempotence helpers: stripping and nulls of printed addresses -/

theorem stripChars_ntop4 {bs : List Nat} : stripChars (ntop4chars bs) = ntop4chars bs := by
  apply stripChars_eq_self
  intro c hc
  rcases ntop4chars_good c hc with h | h
  · exact (isDigitC_facts h).2.2.2
  · rw [h]; decide

theorem hasNulL_ntop4 {bs : List Nat} : hasNulL (ntop4chars bs) = false :=
  hasNulL_eq_false_iff.mpr (fun c hc => good4_ne_nul (ntop4chars_good c hc))

theorem stripChars_ntop6 {ws : List Nat} : stripChars (ntop6chars ws) = ntop6chars ws :=
  stripChars_eq_self (fun c hc => good6_not_space (ntop6chars_good c hc))

theorem hasNulL_ntop6 {ws : List Nat} : hasNulL (ntop6chars ws) = false :=
  hasNulL_eq_false_iff.mpr (fun c hc => good6_ne_nul (ntop6chars_good c hc))

theorem stripChars_hexJoin {ws : List Nat} : stripChars (hexJoin ws) = hexJoin ws := by
  apply stripChars_eq_self
  intro c hc
  rcases hexJoin_good c hc with h | h
  · exact (isHexC_facts h).2.2.2
  · rw [h]; decide

theorem hasNulL_hexJoin {ws : List Nat} : hasNulL (hexJoin ws) = false := by
  rw [hasNulL_eq_false_iff]
  intro c hc
  rcases hexJoin_good c hc with h | h
  · exact (isHexC_facts h).2.2.1
  · rw [h]; decide

theorem hexJoin_no_dot {ws : List Nat} : '.' ∉ hexJoin ws := by
  intro hc
  rcases hexJoin_good '.' hc with h | h
  · exact absurd ((isHexC_facts h).2.1 rfl) (fun x => x)
  · exact absurd h (by decide)

theorem colon_mem_ntop6 {ws : List Nat} (h8 : ws.length = 8) : ':' ∈ ntop6chars ws := by
  cases hbr : bestRun ws with
  | none =>
    rw [ntop6chars_eq_of_none hbr]
    cases ws with
    | nil => simp at h8
    | cons w0 t =>
      cases t with
      | nil => simp at h8
      | cons w1 t2 =>
        rw [hexJoin_cons_cons]
        exact List.mem_append.mpr (Or.inr (List.mem_cons_self ':' _))
  | some bl =>
    obtain ⟨b, l⟩ := bl
    by_cases henc : b = 0 ∧ (l = 6 ∨ (l = 5 ∧ ws.getD 5 0 = 0xffff))
    · rw [ntop6chars_eq_of_encap hbr henc]
      apply List.mem_append.mpr (Or.inl ?_)
      by_cases hl5 : l = 5
      · rw [if_pos hl5]; simp
      · rw [if_neg hl5]; simp
    · rw [ntop6chars_eq_of_run hbr henc]
      exact List.mem_append.mpr (Or.inr (List.mem_cons_self ':' _))

/-! ### Failure of `pton4pure` on non-dotted-quad shapes -/

theorem exists_mem_splitChars {sep c : Char} {l : List Char} (hc : c ∈ l) (hne : c ≠ sep) :
    ∃ g ∈ splitChars sep l, c ∈ g := by
  induction l with
  | nil => exact absurd hc (List.not_mem_nil c)
  | cons a as ih =>
    rw [splitChars_cons_eq]
    cases h : splitChars sep as with
    | nil => exact absurd h (splitChars_ne_nil sep as)
    | cons g0 gs =>
      by_cases ha : a = sep
      · rw [if_pos ha]
        have hcas : c ∈ as := by
          rcases List.mem_cons.mp hc with h1 | h1
          · exact absurd (h1.trans ha) hne
          · exact h1
        rcases ih hcas with ⟨g, hg, hcg⟩
        exact ⟨g, List.mem_cons_of_mem [] (h ▸ hg), hcg⟩
      · rw [if_neg ha]
        simp only [List.headD_cons, List.tail_cons]
        rcases List.mem_cons.mp hc with h1 | h1
        · exact ⟨a :: g0, List.mem_cons_self _ _, h1 ▸ List.mem_cons_self a g0⟩
        · rcases ih h1 with ⟨g, hg, hcg⟩
          rcases List.mem_cons.mp (h ▸ hg) with h2 | h2
          · exact ⟨a :: g0, List.mem_cons_self _ _, List.mem_cons_of_mem a (h2 ▸ hcg)⟩
          · exact ⟨g, List.mem_cons_of_mem _ h2, hcg⟩

theorem decGroupOk_digits {g : List Char} (h : decGroupOk g = true) :
    ∀ c ∈ g, isDigitC c = true := by
  cases g with
  | nil => exact absurd h (by simp [decGroupOk])
  | cons a as =>
    simp only [decGroupOk, Bool.and_eq_true, List.all_eq_true] at h
    intro c hc
    rcases List.mem_cons.mp hc with h1 | h1
    · rw [h1]; exact h.1.1
    · exact h.1.2 c h1

theorem pton4pure_none_of_colon {s : List Char} (h : ':' ∈ s) : pton4pure s = none := by
  simp only [pton4pure]
  rw [if_neg ?hcond]
  case hcond =>
    rintro ⟨_, hall⟩
    rcases @exists_mem_splitChars '.' ':' s h (by decide) with ⟨g, hg, hcg⟩
    have := decGroupOk_digits (hall g hg).1 ':' hcg
    exact absurd this (by decide)

theorem pton4pure_none_no_dot {s : List Char} (h : '.' ∉ s) :
    pton4pure s = none := by
  simp only [pton4pure]
  rw [if_neg ?hcond]
  case hcond =>
    rintro ⟨hlen, _⟩
    rw [splitChars_of_not_mem h] at hlen
    simp at hlen

/-! ### Equality of colon-free segments before the first separator -/

theorem append_colon_inj {j t : List Char} :
    ∀ {x y : List Char}, ':' ∉ x → ':' ∉ y → x ++ ':' :: j = y ++ ':' :: t →
      x = y ∧ j = t := by
  intro x
  induction x with
  | nil =>
    intro y hx hy he
    cases y with
    | nil => simpa using he
    | cons b ys =>
      rw [List.nil_append, List.cons_append] at he
      rcases List.cons.inj he with ⟨hb, _⟩
      exact absurd (hb.symm ▸ List.mem_cons_self b ys) hy
  | cons a xs ih =>
    intro y hx hy he
    cases y with
    | nil =>
      rw [List.cons_append, List.nil_append] at he
      rcases List.cons.inj he with ⟨ha, _⟩
      exact absurd (ha ▸ List.mem_cons_self a xs) hx
    | cons b ys =>
      rw [List.cons_append, List.cons_append] at he
      rcases List.cons.inj he with ⟨hab, htl⟩
      rcases ih (fun hm => hx (List.mem_cons_of_mem a hm))
        (fun hm => hy (List.mem_cons_of_mem b hm)) htl with ⟨h1, h2⟩
      exact ⟨by rw [hab, h1], h2⟩

/-! ### Behaviour of the `"::ffff:"` replacement -/

theorem replaceFuel_id_of_noCC : ∀ (fuel : Nat) {s : List Char}, s.length ≤ fuel →
    containsCC s = false → replaceFuel ccffff [] fuel s = s := by
  intro fuel
  induction fuel with
  | zero => intro s _ _; rfl
  | succ n ih =>
    intro s hlen hcc
    cases s with
    | nil => rfl
    | cons c cs =>
      rw [replaceFuel, if_neg ?hm]
      · rw [ih (by simp at hlen; omega) (containsCC_cons_false hcc)]
      case hm =>
        rintro ⟨_, hsw⟩
        rcases strStartsWith_iff.mp hsw with ⟨t, ht⟩
        rw [show ccffff ++ t = ':' :: ':' :: (['f', 'f', 'f', 'f', ':'] ++ t) from rfl] at ht
        rw [ht, containsCC, if_pos ⟨rfl, rfl⟩] at hcc
        exact absurd hcc (by simp)

theorem replaceFuel_ccffff_unwrap {t : List Char} (hcc : containsCC t = false) :
    replaceFuel ccffff [] (7 + t.length) (ccffff ++ t) = t := by
  rw [show 7 + t.length = (6 + t.length) + 1 from by omega]
  rw [show ccffff ++ t = ':' :: (':' :: 'f' :: 'f' :: 'f' :: 'f' :: ':' :: t) from rfl]
  rw [replaceFuel, if_pos ⟨by simp [ccffff], strStartsWith_iff.mpr ⟨t, rfl⟩⟩]
  rw [List.nil_append]
  rw [show (':' :: (':' :: 'f' :: 'f' :: 'f' :: 'f' :: ':' :: t)).drop ccffff.length = t
    from rfl]
  exact replaceFuel_id_of_noCC _ (by omega) hcc

/-! ### Failing evaluation of `pton6pure` on a short piece list -/

theorem pton6pure_eval_nocc_fail {s : List Char} (hsp : splitCC s = none) {ws : List Nat}
    (hp : parseTailGroups (splitChars ':' s) = some ws) (h8 : ws.length ≠ 8) :
    pton6pure s = none := by
  unfold pton6pure
  rw [hsp]
  show (match parseTailGroups (splitChars ':' s) with
    | some ws => if ws.length = 8 then some ws else none
    | none => none) = none
  rw [hp]
  show (if ws.length = 8 then some ws else none) = none
  rw [if_neg h8]

/-! ### Fixed points of `cleanup_ip` -/

theorem cleanup_fixpoint {m : List Char} (hstrip : stripChars m = m)
    (hnul : hasNulL m = false) (h4 : pton4pure m = none) (h6 : pton6pure m = none) :
    cleanup_ip (String.mk m) = .ok (String.mk m) := by
  unfold cleanup_ip
  dsimp only
  rw [hstrip, if_neg (by rw [hnul]; simp), h4, h6]

theorem cleanup_ntop4 {bs : List Nat} (hlen : bs.length = 4) (hb : ∀ b ∈ bs, b < 256) :
    cleanup_ip (String.mk (ntop4chars bs)) = .ok (String.mk (ntop4chars bs)) := by
  unfold cleanup_ip
  dsimp only
  rw [stripChars_ntop4, if_neg (by rw [hasNulL_ntop4]; simp), pton4pure_ntop4 hlen hb]

theorem cleanup_ntop6_plain {ws : List Nat} (h8 : ws.length = 8)
    (hwb : ∀ w ∈ ws, w < 65536) (hff : strStartsWith ccffff (ntop6chars ws) = false) :
    cleanup_ip (String.mk (ntop6chars ws)) = .ok (String.mk (ntop6chars ws)) := by
  unfold cleanup_ip
  dsimp only
  rw [stripChars_ntop6, if_neg (by rw [hasNulL_ntop6]; simp),
    pton4pure_none_of_colon (colon_mem_ntop6 h8), pton6_ntop6 h8 hwb]
  dsimp only
  rw [hff]
  simp

theorem cleanup_hexJoin_short {ws' : List Nat} (hne : ws' ≠ []) (hlt : ws'.length ≠ 8)
    (hw : ∀ w ∈ ws', w < 65536) :
    cleanup_ip (String.mk (hexJoin ws')) = .ok (String.mk (hexJoin ws')) := by
  have hsp : splitChars ':' (hexJoin ws') = ws'.map toHexChars := by
    unfold hexJoin
    apply splitChars_joinSep (by simp [hne])
    intro g hg
    rcases List.mem_map.mp hg with ⟨w, _, rfl⟩
    exact toHexChars_no_colon
  apply cleanup_fixpoint stripChars_hexJoin hasNulL_hexJoin
    (pton4pure_none_no_dot hexJoin_no_dot)
  exact pton6pure_eval_nocc_fail (splitCC_eq_none (hexJoin_noCC ws'))
    (by rw [hsp]; exact parseTailGroups_map hw) hlt

theorem cleanup_ffff_branch {ws : List Nat} (h8 : ws.length = 8)
    (hwb : ∀ w ∈ ws, w < 65536) (hff : strStartsWith ccffff (ntop6chars ws) = true) :
    cleanup_ip (String.mk (replaceFuel ccffff [] (ntop6chars ws).length (ntop6chars ws))) =
      .ok (String.mk (replaceFuel ccffff [] (ntop6chars ws).length (ntop6chars ws))) := by
  cases hbr : bestRun ws with
  | none =>
    exfalso
    rw [ntop6chars_eq_of_none hbr] at hff
    rcases strStartsWith_iff.mp hff with ⟨t, ht⟩
    cases hv : hexJoin ws with
    | nil => rw [hv] at ht; exact absurd ht (by simp [ccffff])
    | cons j js =>
      rw [hv] at ht
      rw [show ccffff ++ t = ':' :: (':' :: 'f' :: 'f' :: 'f' :: 'f' :: ':' :: t)
        from rfl] at ht
      rcases List.cons.inj ht with ⟨hj, _⟩
      exact hexJoin_head_ne_colon hv hj
  | some bl =>
    obtain ⟨b, l⟩ := bl
    by_cases henc : b = 0 ∧ (l = 6 ∨ (l = 5 ∧ ws.getD 5 0 = 0xffff))
    · rw [ntop6chars_eq_of_encap hbr henc] at hff ⊢
      have hd6len : (ws.drop 6).length = 2 := by rw [List.length_drop, h8]
      obtain ⟨w6, w7, hd6⟩ : ∃ w6 w7, ws.drop 6 = [w6, w7] := by
        cases hc : ws.drop 6 with
        | nil => rw [hc] at hd6len; simp at hd6len
        | cons a t =>
          cases t with
          | nil => rw [hc] at hd6len; simp at hd6len
          | cons a2 t2 =>
            cases t2 with
            | nil => exact ⟨a, a2, rfl⟩
            | cons a3 t3 => rw [hc] at hd6len; simp at hd6len
      have hbytes : tailBytes (ws.drop 6) =
          [w6 / 256 % 256, w6 % 256, w7 / 256 % 256, w7 % 256] := by
        rw [hd6]
        rfl
      have hblt4 : ∀ x ∈ ([w6 / 256 % 256, w6 % 256, w7 / 256 % 256, w7 % 256] : List Nat),
          x < 256 := by
        intro x hx
        simp only [List.mem_cons, List.not_mem_nil, or_false] at hx
        rcases hx with h1 | h1 | h1 | h1 <;> omega
      rw [hbytes] at hff ⊢
      rcases henc.2 with hl6 | ⟨hl5, _⟩
      · exfalso
        rw [if_neg (by omega)] at hff
        rcases strStartsWith_iff.mp hff with ⟨t, ht⟩
        rw [show ccffff ++ t = ':' :: ':' :: ('f' :: 'f' :: 'f' :: 'f' :: ':' :: t)
          from rfl] at ht
        rw [show ([':', ':'] : List Char) ++
          ntop4chars [w6 / 256 % 256, w6 % 256, w7 / 256 % 256, w7 % 256] =
          ':' :: ':' :: ntop4chars [w6 / 256 % 256, w6 % 256, w7 / 256 % 256, w7 % 256]
          from rfl] at ht
        rcases List.cons.inj ht with ⟨_, ht2⟩
        rcases List.cons.inj ht2 with ⟨_, ht3⟩
        have hbne : ([w6 / 256 % 256, w6 % 256, w7 / 256 % 256, w7 % 256] : List Nat) ≠ [] := by
          simp
        have hd := ntop4chars_head_digit hbne ht3
        exact absurd hd (by decide)
      · rw [if_pos hl5] at hff ⊢
        rw [show ([':', ':', 'f', 'f', 'f', 'f', ':'] : List Char) ++
          ntop4chars [w6 / 256 % 256, w6 % 256, w7 / 256 % 256, w7 % 256] =
          ccffff ++ ntop4chars [w6 / 256 % 256, w6 % 256, w7 / 256 % 256, w7 % 256]
          from rfl]
        rw [show (ccffff ++
          ntop4chars [w6 / 256 % 256, w6 % 256, w7 / 256 % 256, w7 % 256]).length =
          7 + (ntop4chars [w6 / 256 % 256, w6 % 256, w7 / 256 % 256, w7 % 256]).length
          from by simp only [List.length_append]; rfl]
        rw [replaceFuel_ccffff_unwrap (containsCC_of_no_colon ntop4chars_no_colon)]
        exact cleanup_ntop4 (by simp) hblt4
    · rw [ntop6chars_eq_of_run hbr henc] at hff ⊢
      rcases strStartsWith_iff.mp hff with ⟨t, ht⟩
      have htake : ws.take b = [] := by
        cases hv : hexJoin (ws.take b) with
        | nil =>
          by_contra hcon
          exact hexJoin_ne_nil hcon hv
        | cons j js =>
          exfalso
          rw [hv] at ht
          rw [show ccffff ++ t = ':' :: (':' :: 'f' :: 'f' :: 'f' :: 'f' :: ':' :: t)
            from rfl] at ht
          rw [List.cons_append] at ht
          rcases List.cons.inj ht with ⟨hj, _⟩
          exact hexJoin_head_ne_colon hv hj
      have hb0 : b = 0 := by
        rcases List.take_eq_nil_iff.mp htake with h1 | h1
        · exact h1
        · rw [h1] at h8; simp at h8
      subst hb0
      rw [htake] at ht ⊢
      rw [show hexJoin ([] : List Nat) = [] from rfl, List.nil_append] at ht ⊢
      have hBeq : hexJoin (ws.drop (0 + l)) = 'f' :: 'f' :: 'f' :: 'f' :: ':' :: t := by
        rw [show ccffff ++ t = ':' :: ':' :: ('f' :: 'f' :: 'f' :: 'f' :: ':' :: t)
          from rfl] at ht
        rcases List.cons.inj ht with ⟨_, ht2⟩
        rcases List.cons.inj ht2 with ⟨_, ht3⟩
        exact ht3
      have hdlen : (ws.drop (0 + l)).length = 8 - l := by
        rw [List.length_drop, h8]
        omega
      rcases bestRun_some hbr with ⟨hl2, _, hble, _⟩
      cases hdl : ws.drop (0 + l) with
      | nil =>
        exfalso
        rw [hdl] at hBeq
        exact absurd hBeq (by simp [hexJoin, joinSep])
      | cons w0 rest =>
        rw [hdl] at hBeq
        cases rest with
        | nil =>
          exfalso
          have hj1 : hexJoin [w0] = toHexChars w0 := by simp [hexJoin, joinSep]
          rw [hj1] at hBeq
          have hcolon : ':' ∈ toHexChars w0 := by rw [hBeq]; simp
          exact toHexChars_no_colon hcolon
        | cons w1 rest1 =>
          rw [hexJoin_cons_cons] at hBeq
          rw [show ('f' :: 'f' :: 'f' :: 'f' :: ':' :: t) =
            ['f', 'f', 'f', 'f'] ++ ':' :: t from rfl] at hBeq
          rcases append_colon_inj toHexChars_no_colon (by decide) hBeq with ⟨hw0, hJt⟩
          have hgoal_c : (':' : Char) :: ':' :: hexJoin (w0 :: w1 :: rest1) =
              ccffff ++ hexJoin (w1 :: rest1) := by
            rw [hexJoin_cons_cons, hw0]
            rfl
          rw [hgoal_c]
          rw [show (ccffff ++ hexJoin (w1 :: rest1)).length =
            7 + (hexJoin (w1 :: rest1)).length from by
              simp only [List.length_append]; rfl]
          rw [replaceFuel_ccffff_unwrap (hexJoin_noCC _)]
          apply cleanup_hexJoin_short (by simp)
          · have hlen2 : (w0 :: w1 :: rest1).length = 8 - l := by rw [← hdl, hdlen]
            simp only [List.length_cons] at hlen2 ⊢
            omega
          · intro w hwm
            exact hwb w ((List.drop_sublist (0 + l) ws).mem
              (by rw [hdl]; exact List.mem_cons_of_mem _ hwm))

/-! ### Claim C5: idempotence of normalization -/

/-- C5: normalization is idempotent — whenever `cleanup_ip s` returns a
string `r` (so `r` ranges over every normalized address, every unwrapped
IPv4-mapped remainder and every trimmed pass-through), running
`cleanup_ip` on `r` returns `r` itself. -/
theorem claim5_cleanup_idempotent (s r : String) (h : cleanup_ip s = .ok r) :
    cleanup_ip r = .ok r := by
  simp only [cleanup_ip] at h
  by_cases hnul : hasNulL (stripChars s.data) = true
  · rw [if_pos hnul] at h
    exact absurd h (by simp)
  · rw [if_neg hnul] at h
    rw [Bool.not_eq_true] at hnul
    cases h4 : pton4pure (stripChars s.data) with
    | some bs =>
      rw [h4] at h
      have h' : Except.ok (String.mk (ntop4chars bs)) = Except.ok r := h
      rcases pton4pure_some h4 with ⟨hlen, hb⟩
      rw [← Except.ok.inj h']
      exact cleanup_ntop4 hlen hb
    | none =>
      rw [h4] at h
      cases h6 : pton6pure (stripChars s.data) with
      | some ws =>
        rw [h6] at h
        rcases pton6pure_some h6 with ⟨h8, hwb⟩
        have h' : (if strStartsWith ccffff (ntop6chars ws) = true then
            Except.ok (String.mk
              (replaceFuel ccffff [] (ntop6chars ws).length (ntop6chars ws)))
          else Except.ok (String.mk (ntop6chars ws))) = Except.ok r := h
        by_cases hff : strStartsWith ccffff (ntop6chars ws) = true
        · rw [if_pos hff] at h'
          rw [← Except.ok.inj h']
          exact cleanup_ffff_branch h8 hwb hff
        · rw [if_neg hff] at h'
          rw [← Except.ok.inj h']
          rw [Bool.not_eq_true] at hff
          exact cleanup_ntop6_plain h8 hwb hff
      | none =>
        rw [h6] at h
        have h' : Except.ok (String.mk (stripChars s.data)) = Except.ok r := h
        rw [← Except.ok.inj h']
        exact cleanup_fixpoint (stripChars_idem s.data) hnul h4 h6

/-- Witness for C5: a normalized IPv6 address (produced from a denormal
spelling) maps to itself. -/
theorem claim5_witness : cleanup_ip (r"2001:db8::1") = .ok (r"2001:db8::1") :=
  claim5_cleanup_idempotent (r" 2001:DB8::1 ") (r"2001:db8::1") (by decide)

end Ipware
